import Mathlib

/-!
Verification development for FoolGo's concurrent UCT search core
(`src/player/uct_player.h`).

The board, the random playout engine, the `NodeRecord` statistics bundle and
the `TranspositionTable` are external collaborators of the player (their
headers are not part of the covered source); they are modelled here from the
specification's interface descriptions (spec sections 3, 4.1, 4.2 and 6).
The search logic itself — `MaxUcbChild`, `ModifyAverageProfitAndReturnNewProfit`,
`SearchAndModifyNodes`, `BestChild`, `GetRegionRatio` — is translated directly
from `uct_player.h`.

C++ `float` statistics are modelled as exact rational arithmetic (`ℚ`), the
usual idealisation; the spec's update law is itself stated "exactly
(to floating-point)".  The mutex, which has no effect on single-threaded
data flow, is modelled as events in an explicit event trace, so that the
lock discipline of the source (which mutations happen between a lock and
its unlock) is itself a checkable artefact.
-/

namespace FoolGo

/-- Modelled from the spec: the two sides (`Force` in `board/force.h`,
which is not part of the covered source). -/
inductive Force where
  | black : Force
  | white : Force
deriving DecidableEq

/-- Modelled from the spec: `PositionIndex` is an integer encoding either a
point on the board or a sentinel PASS value (`board/position.h` is not part
of the covered source). -/
abbrev PositionIndex := Int

/-- Modelled from the spec: the distinguished PASS sentinel.  Its concrete
numeric value is irrelevant to every claim; `-1` is never a point index. -/
def POSITION_INDEX_PASS : PositionIndex := -1

/-- Modelled from the spec: the MCTS statistics for one tree node
(`player/node_record.h` is not part of the covered source).
Fields in the constructor order used at `uct_player.h:200`,
`NodeRecord(1, new_profit, false)`:
visits, average profit, in-search flag.  `float` is modelled as `ℚ`. -/
structure NodeRecord where
  visited_times : Nat
  average_profit : ℚ
  is_in_search : Bool
deriving DecidableEq

/-- Modelled from the spec (section 6, "External interfaces"): the board and
playout collaborators consumed by the UCT player.  `full_board.h` and
`monte_carlo_game.h` are not part of the covered source, so the operations
are abstract fields; `playout b seed` stands for
`MonteCarloGame(b, seed).Run(); GetFullBoard()`. -/
structure GoGame (B : Type) where
  playableIndexes : B → Force → List PositionIndex
  nextForce : B → Force
  lastForce : B → Force
  isEnd : B → Bool
  isSuicide : B → Force → PositionIndex → Bool
  play : B → PositionIndex → B
  pass : B → Force → B
  blackRegion : B → Nat
  boardLenSquare : Nat
  playout : B → Nat → B

/-- Modelled from the spec (section 4.2): the transposition table is a map
from board states to node records (`player/transposition_table.h` is not part
of the covered source).  An association list keyed by board equality. -/
structure TranspositionTable (B : Type) where
  entries : List (B × NodeRecord)
deriving DecidableEq

namespace TranspositionTable

variable {B : Type} [DecidableEq B]

/-- First-match lookup in the association list. -/
def lookupRec : List (B × NodeRecord) → B → Option NodeRecord
  | [], _ => none
  | p :: ps, b => if p.1 = b then some p.2 else lookupRec ps b

/-- Modelled from the spec: `get(board)` returns the record for that state,
or absent. -/
def get (t : TranspositionTable B) (b : B) : Option NodeRecord :=
  lookupRec t.entries b

/-- Modelled from the spec: `insert(board, record)` installs a record;
callers insert only on first visit. -/
def insert (t : TranspositionTable B) (b : B) (r : NodeRecord) :
    TranspositionTable B :=
  ⟨(b, r) :: t.entries⟩

/-- In-place mutation of the record stored under key `b` (the C++ code writes
through a `NodeRecord*` obtained from the table): every binding of `b` is
replaced.  A no-op when `b` is absent. -/
def set (t : TranspositionTable B) (b : B) (r : NodeRecord) :
    TranspositionTable B :=
  ⟨t.entries.map (fun p => if p.1 = b then (b, r) else p)⟩

/-- Modelled from the spec: `get_child(board, move)` is the record of the
state reached by playing `move` on `board` (spec section 4.2 fixes
`get_child(b, m) = get(play(b, m))`). -/
def getChild (g : GoGame B) (t : TranspositionTable B) (b : B)
    (m : PositionIndex) : Option NodeRecord :=
  t.get (g.play b m)

end TranspositionTable

/-- From `uct_player.h:68-75`: the fraction of the board controlled by
`force`; `black_region / side_length²` for black and its complement for
white.  `float` is modelled as `ℚ`. -/
def GetRegionRatio {B : Type} (g : GoGame B) (full_board : B)
    (force : Force) : ℚ :=
  let black_ratio : ℚ := (g.blackRegion full_board : ℚ) / (g.boardLenSquare : ℚ)
  match force with
  | Force.black => black_ratio
  | Force.white => 1 - black_ratio

/-- Events recorded by the model of the search: mutex acquisitions and
releases, the table/record mutations of `uct_player.h`, and the construction
plus run of a Monte-Carlo playout (with the seed it was constructed with).
The trace makes the source's lock discipline checkable. -/
inductive SearchEvent (B : Type) where
  | lock : SearchEvent B
  | unlock : SearchEvent B
  | insertRecord : SearchEvent B
  | setInSearch : SearchEvent B
  | setAverageProfit : SearchEvent B
  | setVisitedTimes : SearchEvent B
  | playoutRun : B → Nat → SearchEvent B
deriving DecidableEq

/-- Which events mutate the transposition table or a node record. -/
def isMutation {B : Type} : SearchEvent B → Bool
  | SearchEvent.insertRecord => true
  | SearchEvent.setInSearch => true
  | SearchEvent.setAverageProfit => true
  | SearchEvent.setVisitedTimes => true
  | _ => false

/-- `mutationsLockedFrom d tr` checks, starting from lock depth `d`, that
every mutation event in `tr` happens at positive lock depth — the trace-level
reading of "every insertion and every record mutation is performed while the
worker holds the single search mutex". -/
def mutationsLockedFrom {B : Type} (depth : Nat) :
    List (SearchEvent B) → Bool
  | [] => true
  | SearchEvent.lock :: es => mutationsLockedFrom (depth + 1) es
  | SearchEvent.unlock :: es => mutationsLockedFrom (depth - 1) es
  | e :: es =>
      (!isMutation e || decide (0 < depth)) && mutationsLockedFrom depth es

/-- The mutable state a worker threads through the recursion: the shared
transposition table and the shared atomic playout counter. -/
structure SearchState (B : Type) where
  table : TranspositionTable B
  mc_game_count : Nat
deriving DecidableEq

section Search

variable {B : Type} [DecidableEq B]

/-- From `uct_player.h:141-152`, the first loop of `MaxUcbChild`: accumulate
`visited_count_sum` over children already in the table (only while
`null_indexes` is still empty, exactly as in the source) and collect the
playable indexes whose child records are absent, in playable order. -/
def CountVisitsAndNulls (g : GoGame B) (t : TranspositionTable B) (b : B) :
    List PositionIndex → Nat × List PositionIndex → Nat × List PositionIndex
  | [], acc => acc
  | m :: rest, acc =>
    match TranspositionTable.getChild g t b m with
    | none => CountVisitsAndNulls g t b rest (acc.1, acc.2 ++ [m])
    | some r =>
        CountVisitsAndNulls g t b rest
          (if acc.2.isEmpty then (acc.1 + r.visited_times, acc.2) else acc)

/-- From `uct_player.h:162-179`, the second loop of `MaxUcbChild`: walk the
playable indexes, skip absent or in-search children, and take an index
whenever its UCB value strictly exceeds the running maximum and the move is
not suicide (both conditions tested together, as in the source). -/
def SelectMaxUcb (g : GoGame B) (ucb : NodeRecord → Nat → ℚ)
    (t : TranspositionTable B) (b : B) (visited_count_sum : Nat) :
    List PositionIndex → ℚ × PositionIndex → ℚ × PositionIndex
  | [], acc => acc
  | m :: rest, acc =>
    match TranspositionTable.getChild g t b m with
    | none => SelectMaxUcb g ucb t b visited_count_sum rest acc
    | some r =>
        if r.is_in_search then
          SelectMaxUcb g ucb t b visited_count_sum rest acc
        else if acc.1 < ucb r visited_count_sum ∧
            g.isSuicide b (g.nextForce b) m = false then
          SelectMaxUcb g ucb t b visited_count_sum rest
            (ucb r visited_count_sum, m)
        else
          SelectMaxUcb g ucb t b visited_count_sum rest acc

/-- From `uct_player.h:130-182`: `MaxUcbChild`.  If some children are absent,
return `null_indexes.at(thread_index % thread_count_)` when that index is in
range and otherwise `null_indexes.at(0)` (the source's dead-guard line 159);
if every child is present, return the running-maximum index of the UCB scan,
starting from `(-1.0, POSITION_INDEX_PASS)`.

The source's `Ucb` (`uct_player.h:62-66`) is
`average_profit + sqrt(2·log(visited_count_sum) / visits)`, a transcendental
function of the record; it enters the selection logic only through its
values, so it is taken here as an explicit parameter `ucb`, with the one
analytic fact the claims need — nonnegativity on reachable records —
supplied as a hypothesis where required. -/
def MaxUcbChild (g : GoGame B) (ucb : NodeRecord → Nat → ℚ)
    (thread_count : Nat) (t : TranspositionTable B) (b : B)
    (thread_index : Nat) : PositionIndex :=
  let playable_index_vector := g.playableIndexes b (g.nextForce b)
  let scan := CountVisitsAndNulls g t b playable_index_vector (0, [])
  let visited_count_sum := scan.1
  let null_indexes := scan.2
  if null_indexes.isEmpty then
    (SelectMaxUcb g ucb t b visited_count_sum playable_index_vector
      (-1, POSITION_INDEX_PASS)).2
  else
    let index := thread_index % thread_count
    if index < null_indexes.length then
      null_indexes.getD index POSITION_INDEX_PASS
    else
      null_indexes.getD 0 POSITION_INDEX_PASS

/-- From `uct_player.h:210-218`: the pass-or-descend step of the
record-present, non-terminal branch of the visit.  If the side to move has
no playable index the board passes (no table access); otherwise the move
returned by `MaxUcbChild` — which acquires and releases the mutex — is
played on the board.  Returns the successor board together with the trace
events the step emits. -/
def nextVisitStep (g : GoGame B) (ucb : NodeRecord → Nat → ℚ)
    (thread_count : Nat) (thread_index : Nat) (b : B)
    (t1 : TranspositionTable B) : B × List (SearchEvent B) :=
  if (g.playableIndexes b (g.nextForce b)).isEmpty then
    (g.pass b (g.nextForce b), [])
  else
    (g.play b (MaxUcbChild g ucb thread_count t1 b thread_index),
     [SearchEvent.lock, SearchEvent.unlock])

/-- From `uct_player.h:184-237`: `ModifyAverageProfitAndReturnNewProfit`
("visit" in the spec), fuel-indexed because the C++ recursion terminates
only through game progress.  Returns the profit, the updated shared state,
and the event trace.

Absent record (leaf): construct `MonteCarloGame(board, seed_)`, run it iff
the board is not terminal, bump the counter, score `GetRegionRatio` for
`LastForce`, insert `NodeRecord(1, profit, false)` — all without the mutex,
as in the source.  Present record: set `in_search` under the mutex; terminal
boards bump the counter and return the stored average, non-terminal boards
pass or descend through `MaxUcbChild` (which locks internally), recurse,
then apply the running-average update through the record pointer; finally
`visits + 1` and, under the mutex again, clear `in_search`. -/
def ModifyAverageProfitAndReturnNewProfit (g : GoGame B)
    (ucb : NodeRecord → Nat → ℚ) (seed : Nat) (thread_count : Nat)
    (thread_index : Nat) :
    Nat → B → SearchState B → Option (ℚ × SearchState B × List (SearchEvent B))
  | 0, _, _ => none
  | fuel + 1, b, st =>
    match st.table.get b with
    | none =>
      let endBoard := if g.isEnd b then b else g.playout b seed
      let new_profit := GetRegionRatio g endBoard (g.lastForce b)
      let tr : List (SearchEvent B) :=
        (if g.isEnd b then [] else [SearchEvent.playoutRun b seed]) ++
          [SearchEvent.insertRecord]
      some (new_profit,
        ⟨st.table.insert b ⟨1, new_profit, false⟩, st.mc_game_count + 1⟩, tr)
    | some node_record =>
      let t1 := st.table.set b { node_record with is_in_search := true }
      if g.isEnd b then
        let r2 := { node_record with
          visited_times := node_record.visited_times + 1, is_in_search := true }
        let r3 := { r2 with is_in_search := false }
        some (node_record.average_profit,
          ⟨(t1.set b r2).set b r3, st.mc_game_count + 1⟩,
          [SearchEvent.lock, SearchEvent.setInSearch, SearchEvent.unlock,
           SearchEvent.setVisitedTimes,
           SearchEvent.lock, SearchEvent.setInSearch, SearchEvent.unlock])
      else
        let next :
            B × List (SearchEvent B) :=
          nextVisitStep g ucb thread_count thread_index b t1
        match ModifyAverageProfitAndReturnNewProfit g ucb seed thread_count
            thread_index fuel next.1 ⟨t1, st.mc_game_count⟩ with
        | none => none
        | some (sub_profit, st2, trRec) =>
          let new_profit := 1 - sub_profit
          match st2.table.get b with
          | none => none
          | some cur =>
            let modified_profit :=
              (cur.average_profit * (cur.visited_times : ℚ) + new_profit) /
                ((cur.visited_times : ℚ) + 1)
            let r3 := { cur with average_profit := modified_profit }
            let r4 := { r3 with visited_times := r3.visited_times + 1 }
            let r5 := { r4 with is_in_search := false }
            some (new_profit,
              ⟨((st2.table.set b r3).set b r4).set b r5, st2.mc_game_count⟩,
              [SearchEvent.lock, SearchEvent.setInSearch, SearchEvent.unlock]
                ++ next.2 ++ trRec ++
                [SearchEvent.setAverageProfit, SearchEvent.setVisitedTimes,
                 SearchEvent.lock, SearchEvent.setInSearch, SearchEvent.unlock])

/-- From `uct_player.h:114-128`: one worker's loop.  While the shared counter
is below the per-move target: select `MaxUcbChild` at the root (locking
internally), clone the root and play the selected move, then visit the
clone, discarding its profit.  Fuel-indexed on loop iterations; when the
loop fuel runs out with the termination condition still false the model
returns `none` (the loop has not finished), so every theorem about a `some`
result speaks about a completed worker loop. -/
def SearchAndModifyNodes (g : GoGame B) (ucb : NodeRecord → Nat → ℚ)
    (seed : Nat) (thread_count : Nat) (mc_game_count_per_move : Nat)
    (thread_index : Nat) (full_board : B) :
    Nat → Nat → SearchState B → Option (SearchState B × List (SearchEvent B))
  | 0, _, st =>
    if st.mc_game_count < mc_game_count_per_move then none else some (st, [])
  | loopFuel + 1, visitFuel, st =>
    if st.mc_game_count < mc_game_count_per_move then
      let max_ucb_index :=
        MaxUcbChild g ucb thread_count st.table full_board thread_index
      let max_ucb_child := g.play full_board max_ucb_index
      match ModifyAverageProfitAndReturnNewProfit g ucb seed thread_count
          thread_index visitFuel max_ucb_child st with
      | none => none
      | some (_, st', trV) =>
        match SearchAndModifyNodes g ucb seed thread_count
            mc_game_count_per_move thread_index full_board loopFuel
            visitFuel st' with
        | none => none
        | some (stF, trRest) =>
          some (stF, [SearchEvent.lock, SearchEvent.unlock] ++ trV ++ trRest)
    else some (st, [])

/-- From `uct_player.h:247-255`, the loop of `BestChild`: keep the first
index whose child record strictly exceeds the running maximum visit count
(initially `-1`); a missing child record is the failed
`assert(node_record != nullptr)`, modelled as `none`. -/
def SelectMostVisited (g : GoGame B) (t : TranspositionTable B) (b : B) :
    List PositionIndex → Int × Option PositionIndex →
      Option (Int × Option PositionIndex)
  | [], acc => some acc
  | m :: rest, acc =>
    match TranspositionTable.getChild g t b m with
    | none => none
    | some r =>
        if acc.1 < (r.visited_times : Int) then
          SelectMostVisited g t b rest ((r.visited_times : Int), some m)
        else
          SelectMostVisited g t b rest acc

/-- From `uct_player.h:239-258`: `BestChild` returns the playable index of
the root whose child record has the greatest visit count, first seen wins;
`none` models the C++ assertion failure (missing child record) and the
uninitialised result of an empty playable list. -/
def BestChild (g : GoGame B) (t : TranspositionTable B) (b : B) :
    Option PositionIndex :=
  match SelectMostVisited g t b (g.playableIndexes b (g.nextForce b))
      (-1, none) with
  | none => none
  | some acc => acc.2

end Search

section Observations

variable {B : Type} [DecidableEq B]

/-- Spec vocabulary: the visit count of the child record reached by `m`
(0 when absent; used only where presence is assumed or proved). -/
def childVisits (g : GoGame B) (t : TranspositionTable B) (b : B)
    (m : PositionIndex) : Nat :=
  match TranspositionTable.getChild g t b m with
  | none => 0
  | some r => r.visited_times

/-- Spec vocabulary: the child record reached by `m`, defaulted when absent
(used only where presence is assumed or proved). -/
def childRecD (g : GoGame B) (t : TranspositionTable B) (b : B)
    (m : PositionIndex) : NodeRecord :=
  (TranspositionTable.getChild g t b m).getD ⟨1, 0, false⟩

/-- Spec vocabulary (section 4.3 step 1): the `unknown` part of the playable
indexes — legal moves whose child records are absent from the table, in
playable order. -/
def unknownIndexes (g : GoGame B) (t : TranspositionTable B) (b : B) :
    List PositionIndex :=
  (g.playableIndexes b (g.nextForce b)).filter
    (fun m => (TranspositionTable.getChild g t b m).isNone)

/-- Spec vocabulary (section 4.3 step 3): the remainder after skipping
absent children, in-search children and suicide moves, in playable order. -/
def candidateIndexes (g : GoGame B) (t : TranspositionTable B) (b : B) :
    List PositionIndex :=
  (g.playableIndexes b (g.nextForce b)).filter
    (fun m =>
      match TranspositionTable.getChild g t b m with
      | none => false
      | some r => !r.is_in_search && !(g.isSuicide b (g.nextForce b) m))

/-- Spec vocabulary (section 4.3): `ΣN`, the sum of the visit counts of the
parent's children (meaningful when every child exists in the table). -/
def childrenVisitSum (g : GoGame B) (t : TranspositionTable B) (b : B) :
    Nat :=
  ((g.playableIndexes b (g.nextForce b)).map (childVisits g t b)).sum

/-- Spec vocabulary: the UCB score of move `m` as `MaxUcbChild` computes it
when every child exists — the `ucb` function applied to `m`'s record and to
`ΣN`. -/
def ucbScore (g : GoGame B) (ucb : NodeRecord → Nat → ℚ)
    (t : TranspositionTable B) (b : B) (m : PositionIndex) : ℚ :=
  ucb (childRecD g t b m) (childrenVisitSum g t b)

/-- Spec vocabulary ("the greatest value; ties: first-seen wins"): the first
element of `x :: l` attaining the maximal `f`-value. -/
def firstMaxBy {β : Type} [LinearOrder β] (f : PositionIndex → β)
    (x : PositionIndex) : List PositionIndex → PositionIndex
  | [] => x
  | y :: ys =>
    let m := firstMaxBy f y ys
    if f x < f m then m else x

/-- The running-maximum fold shared by the two selection loops of the
source: strictly better values displace the current champion. -/
def pureMaxFold {β : Type} [LinearOrder β] (f : PositionIndex → β) :
    List PositionIndex → β × PositionIndex → β × PositionIndex
  | [], acc => acc
  | m :: rest, acc =>
      pureMaxFold f rest (if acc.1 < f m then (f m, m) else acc)

/-- Spec vocabulary (coordinator invariant, section 4.5): every legal root
move has a child record with at least one visit. -/
def allRootChildrenVisited (g : GoGame B) (root : B)
    (t : TranspositionTable B) : Bool :=
  (g.playableIndexes root (g.nextForce root)).all
    (fun m =>
      match t.get (g.play root m) with
      | none => false
      | some r => decide (1 ≤ r.visited_times))

end Observations

/-- A tiny concrete game used to evaluate the model on closed inputs:
a board is the list of moves played so far (most recent first), the three
points `0, 1, 2` are playable until two moves have been played, there are no
suicides, black always controls one of the four points of the 2×2 area, and
a playout appends two moves at `9`, reaching a terminal board. -/
def toyGame : GoGame (List Int) where
  playableIndexes b _ := if 2 ≤ b.length then [] else [0, 1, 2]
  nextForce b := if b.length % 2 = 0 then Force.black else Force.white
  lastForce b := if b.length % 2 = 0 then Force.white else Force.black
  isEnd b := decide (2 ≤ b.length)
  isSuicide _ _ _ := false
  play b m := m :: b
  pass b _ := POSITION_INDEX_PASS :: b
  blackRegion _ := 1
  boardLenSquare := 4
  playout b _ := 9 :: 9 :: b

/-- A variant of the toy game in which playing point `2` is a suicide. -/
def toyGameS : GoGame (List Int) where
  playableIndexes b _ := if 2 ≤ b.length then [] else [0, 1, 2]
  nextForce b := if b.length % 2 = 0 then Force.black else Force.white
  lastForce b := if b.length % 2 = 0 then Force.white else Force.black
  isEnd b := decide (2 ≤ b.length)
  isSuicide _ _ m := decide (m = 2)
  play b m := m :: b
  pass b _ := POSITION_INDEX_PASS :: b
  blackRegion _ := 1
  boardLenSquare := 4
  playout b _ := 9 :: 9 :: b

/-- A score function for concrete evaluations: the record's average profit
(nonnegative on the toy tables used below). -/
def toyUcb : NodeRecord → Nat → ℚ := fun r _ => r.average_profit

/-- The constant-zero score function: trivially nonnegative, used where a
nonnegativity hypothesis on the score must be discharged. -/
def zeroUcb : NodeRecord → Nat → ℚ := fun _ _ => 0

/-- The empty transposition table over toy boards. -/
def emptyToyTable : TranspositionTable (List Int) := ⟨[]⟩

/-- A toy table in which only the root child reached by move `2` has a
record, so the root's unknown children are `[0, 1]`. -/
def c1Table : TranspositionTable (List Int) :=
  ⟨[([2], ⟨1, 1/2, false⟩)]⟩

/-- A toy table holding a record with three visits for the terminal board
`[5, 5]`. -/
def c2Table : TranspositionTable (List Int) :=
  ⟨[([5, 5], ⟨3, 1/2, false⟩)]⟩

/-- A second toy table holding a record for the terminal board `[5, 5]`,
used to trace the terminal branch's mutations. -/
def c3Table : TranspositionTable (List Int) :=
  ⟨[([5, 5], ⟨3, 1/2, false⟩)]⟩

/-- A toy table in which all three root children have records, with the
maximal visit count attained first at move `1`. -/
def c5Table : TranspositionTable (List Int) :=
  ⟨[([0], ⟨1, 0, false⟩), ([1], ⟨5, 0, false⟩), ([2], ⟨5, 0, false⟩)]⟩

/-- A toy table in which all three root children have records; paired with
`toyGameS` (move `2` suicidal) it leaves candidates `[0, 1]`. -/
def c6Table : TranspositionTable (List Int) :=
  ⟨[([0], ⟨1, 0, false⟩), ([1], ⟨2, 0, false⟩), ([2], ⟨1, 0, false⟩)]⟩

/-- A toy table holding a two-visit record for the non-terminal board `[0]`,
whose own children are all absent. -/
def c7Table : TranspositionTable (List Int) :=
  ⟨[([0], ⟨2, 1/2, false⟩)]⟩

/-- The completed three-iteration single-threaded toy search (target 3 on an
empty table): used to instantiate the coordinator invariant. -/
def c4Out : SearchState (List Int) × List (SearchEvent (List Int)) :=
  (SearchAndModifyNodes toyGame toyUcb 7 1 3 0 [] 5 1
    ⟨emptyToyTable, 0⟩).getD (⟨⟨[]⟩, 0⟩, [])

/-- A completed recursive toy visit of the board `[0]` whose record is
present and whose children are absent. -/
def c7Out : ℚ × SearchState (List Int) × List (SearchEvent (List Int)) :=
  (ModifyAverageProfitAndReturnNewProfit toyGame toyUcb 7 1 0 2 [0]
    ⟨c7Table, 0⟩).getD (0, ⟨⟨[]⟩, 0⟩, [])

/-- A completed toy search used to instantiate the profit-range invariant. -/
def c9Out : SearchState (List Int) × List (SearchEvent (List Int)) :=
  (SearchAndModifyNodes toyGame toyUcb 11 1 3 0 [] 5 1
    ⟨emptyToyTable, 0⟩).getD (⟨⟨[]⟩, 0⟩, [])

/-- A completed toy search whose trace contains playout events, used to
instantiate the seed-uniformity property. -/
def c10Out : SearchState (List Int) × List (SearchEvent (List Int)) :=
  (SearchAndModifyNodes toyGame toyUcb 13 1 2 0 [] 4 1
    ⟨emptyToyTable, 0⟩).getD (⟨⟨[]⟩, 0⟩, [])

namespace TranspositionTable

variable {B : Type} [DecidableEq B]

theorem get_insert (t : TranspositionTable B) (b c : B) (r : NodeRecord) :
    (t.insert b r).get c = if c = b then some r else t.get c := by
  by_cases h : c = b
  · subst h; simp [insert, get, lookupRec]
  · have hbc : ¬ b = c := fun hh => h hh.symm
    simp [insert, get, lookupRec, h, hbc]

theorem lookupRec_map_set (l : List (B × NodeRecord)) (b c : B)
    (r : NodeRecord) :
    lookupRec (l.map (fun p => if p.1 = b then (b, r) else p)) c =
      if c = b then (lookupRec l b).map (fun _ => r) else lookupRec l c := by
  induction l with
  | nil => by_cases h : c = b <;> simp [lookupRec, h]
  | cons p ps ih =>
    by_cases hpb : p.1 = b
    · by_cases hcb : c = b
      · subst hcb; simp [lookupRec, hpb]
      · have hpc : ¬ p.1 = c := fun hh => hcb ((hh.symm.trans hpb).symm ▸ rfl)
        have hbc : ¬ b = c := fun hh => hcb hh.symm
        simp [lookupRec, hpb, hcb, hbc, hpc, ih]
    · by_cases hcb : c = b
      · subst hcb
        simp [lookupRec, hpb, ih]
      · by_cases hpc : p.1 = c
        · simp [lookupRec, hpb, hpc, hcb]
        · simp [lookupRec, hpb, hpc, hcb, ih]

theorem get_set (t : TranspositionTable B) (b c : B) (r : NodeRecord) :
    (t.set b r).get c =
      if c = b then (t.get b).map (fun _ => r) else t.get c :=
  lookupRec_map_set t.entries b c r

theorem get_set_self (t : TranspositionTable B) (b : B) (r r0 : NodeRecord)
    (h : t.get b = some r0) : (t.set b r).get b = some r := by
  simp [get_set, h]

theorem get_set_ne (t : TranspositionTable B) (b c : B) (r : NodeRecord)
    (h : c ≠ b) : (t.set b r).get c = t.get c := by
  simp [get_set, h]

end TranspositionTable

section ArgmaxLemmas

variable {β : Type} [LinearOrder β]

theorem firstMaxBy_head_le (f : PositionIndex → β) (x : PositionIndex)
    (l : List PositionIndex) : f x ≤ f (firstMaxBy f x l) := by
  cases l with
  | nil => simp [firstMaxBy]
  | cons y ys =>
    simp only [firstMaxBy]
    split
    · exact le_of_lt (by assumption)
    · exact le_refl _

theorem firstMaxBy_mem (f : PositionIndex → β) (x : PositionIndex)
    (l : List PositionIndex) : firstMaxBy f x l ∈ x :: l := by
  induction l generalizing x with
  | nil => simp [firstMaxBy]
  | cons y ys ih =>
    simp only [firstMaxBy]
    split
    · have := ih y
      simp only [List.mem_cons] at this ⊢
      tauto
    · simp

theorem firstMaxBy_le (f : PositionIndex → β) (x : PositionIndex)
    (l : List PositionIndex) :
    ∀ z ∈ x :: l, f z ≤ f (firstMaxBy f x l) := by
  induction l generalizing x with
  | nil => intro z hz; simp at hz; subst hz; simp [firstMaxBy]
  | cons y ys ih =>
    intro z hz
    simp only [List.mem_cons] at hz
    simp only [firstMaxBy]
    split
    · rename_i hlt
      rcases hz with hz | hz | hz
      · exact le_of_lt (hz ▸ hlt)
      · exact ih y z (by simp [hz])
      · exact ih y z (by simp [hz])
    · rename_i hge
      push_neg at hge
      rcases hz with hz | hz | hz
      · exact hz ▸ le_refl _
      · exact le_trans (ih y z (by simp [hz])) hge
      · exact le_trans (ih y z (by simp [hz])) hge

theorem firstMaxBy_cons_of_le (f : PositionIndex → β) (c x : PositionIndex)
    (xs : List PositionIndex) (h : f x ≤ f c) :
    firstMaxBy f c (x :: xs) = firstMaxBy f c xs := by
  cases xs with
  | nil =>
    simp [firstMaxBy, not_lt.mpr h]
  | cons y ys =>
    simp only [firstMaxBy]
    by_cases hk : f x < f (firstMaxBy f y ys)
    · simp [hk]
    · push_neg at hk
      have hcx : ¬ f c < f x := not_lt.mpr h
      have hck : ¬ f c < f (firstMaxBy f y ys) :=
        not_lt.mpr (le_trans hk h)
      simp [hk, not_lt.mpr hk, hcx, hck]

theorem firstMaxBy_cons_of_lt (f : PositionIndex → β) (c x : PositionIndex)
    (xs : List PositionIndex) (h : f c < f x) :
    firstMaxBy f c (x :: xs) = firstMaxBy f x xs := by
  simp only [firstMaxBy]
  have : f c < f (firstMaxBy f x xs) :=
    lt_of_lt_of_le h (firstMaxBy_head_le f x xs)
  simp [this]

theorem pureMaxFold_spec (f : PositionIndex → β) (l : List PositionIndex) :
    ∀ c : PositionIndex,
      pureMaxFold f l (f c, c) =
        (f (firstMaxBy f c l), firstMaxBy f c l) := by
  induction l with
  | nil => intro c; simp [pureMaxFold, firstMaxBy]
  | cons x xs ih =>
    intro c
    by_cases h : f c < f x
    · rw [firstMaxBy_cons_of_lt f c x xs h]
      simp only [pureMaxFold, if_pos h]
      exact ih x
    · push_neg at h
      rw [firstMaxBy_cons_of_le f c x xs h]
      simp only [pureMaxFold, if_neg (not_lt.mpr h)]
      exact ih c

end ArgmaxLemmas

section ScanLemmas

variable {B : Type} [DecidableEq B]

theorem countVisitsAndNulls_snd (g : GoGame B) (t : TranspositionTable B)
    (b : B) :
    ∀ (l : List PositionIndex) (s : Nat) (acc : List PositionIndex),
      (CountVisitsAndNulls g t b l (s, acc)).2 =
        acc ++ l.filter (fun m => (TranspositionTable.getChild g t b m).isNone) := by
  intro l
  induction l with
  | nil => intro s acc; simp [CountVisitsAndNulls]
  | cons m rest ih =>
    intro s acc
    cases hm : TranspositionTable.getChild g t b m with
    | none =>
      simp only [CountVisitsAndNulls, hm]
      rw [ih]
      simp [hm]
    | some r =>
      simp only [CountVisitsAndNulls, hm]
      cases hacc : acc.isEmpty
      · simp only [hacc, Bool.false_eq_true, if_false]
        rw [ih]
        simp [hm]
      · simp only [hacc, if_true]
        rw [ih]
        simp [hm]

theorem countVisitsAndNulls_fst_all (g : GoGame B)
    (t : TranspositionTable B) (b : B) :
    ∀ (l : List PositionIndex),
      (∀ m ∈ l, (TranspositionTable.getChild g t b m).isSome = true) →
      ∀ s : Nat,
        (CountVisitsAndNulls g t b l (s, [])).1 =
          s + (l.map (childVisits g t b)).sum := by
  intro l
  induction l with
  | nil => intro _ s; simp [CountVisitsAndNulls]
  | cons m rest ih =>
    intro hall s
    cases hm : TranspositionTable.getChild g t b m with
    | none =>
      have := hall m (by simp)
      rw [hm] at this
      simp at this
    | some r =>
      simp only [CountVisitsAndNulls, hm, List.isEmpty_nil, if_true]
      rw [ih (fun x hx => hall x (by simp [hx])) (s + r.visited_times)]
      simp [childVisits, hm, add_assoc]

theorem selectMaxUcb_eq_pure (g : GoGame B) (ucb : NodeRecord → Nat → ℚ)
    (t : TranspositionTable B) (b : B) (S : Nat) :
    ∀ (l : List PositionIndex) (acc : ℚ × PositionIndex),
      SelectMaxUcb g ucb t b S l acc =
        pureMaxFold (fun m => ucb (childRecD g t b m) S)
          (l.filter (fun m =>
            match TranspositionTable.getChild g t b m with
            | none => false
            | some r => !r.is_in_search && !(g.isSuicide b (g.nextForce b) m)))
          acc := by
  intro l
  induction l with
  | nil => intro acc; simp [SelectMaxUcb, pureMaxFold]
  | cons m rest ih =>
    intro acc
    cases hm : TranspositionTable.getChild g t b m with
    | none =>
      simp only [SelectMaxUcb, hm]
      rw [ih]
      simp [hm]
    | some r =>
      cases hins : r.is_in_search with
      | true =>
        simp only [SelectMaxUcb, hm, hins, if_true]
        rw [ih]
        simp [hm, hins]
      | false =>
        cases hsui : g.isSuicide b (g.nextForce b) m with
        | true =>
          have hcond : ¬ (acc.1 < ucb r S ∧
              g.isSuicide b (g.nextForce b) m = false) := by
            intro hc
            rw [hsui] at hc
            exact absurd hc.2 (by simp)
          simp only [SelectMaxUcb, hm, hins, Bool.false_eq_true, if_false,
            if_neg hcond]
          rw [ih]
          simp [hm, hins, hsui]
        | false =>
          have hfil :
              (List.filter (fun m =>
                match TranspositionTable.getChild g t b m with
                | none => false
                | some r => !r.is_in_search &&
                    !(g.isSuicide b (g.nextForce b) m)) (m :: rest)) =
              m :: (List.filter (fun m =>
                match TranspositionTable.getChild g t b m with
                | none => false
                | some r => !r.is_in_search &&
                    !(g.isSuicide b (g.nextForce b) m)) rest) := by
            simp [List.filter_cons, hm, hins, hsui]
          rw [hfil]
          have hscore : ucb (childRecD g t b m) S = ucb r S := by
            simp [childRecD, hm]
          by_cases hlt : acc.1 < ucb r S
          · have hcond : (acc.1 < ucb r S ∧
                g.isSuicide b (g.nextForce b) m = false) := ⟨hlt, hsui⟩
            simp only [SelectMaxUcb, hm, hins, Bool.false_eq_true, if_false,
              if_pos hcond]
            rw [ih]
            simp only [pureMaxFold, hscore, if_pos hlt]
          · have hcond : ¬ (acc.1 < ucb r S ∧
                g.isSuicide b (g.nextForce b) m = false) := by
              intro hc; exact hlt hc.1
            simp only [SelectMaxUcb, hm, hins, Bool.false_eq_true, if_false,
              if_neg hcond]
            rw [ih]
            simp only [pureMaxFold, hscore, if_neg hlt]

end ScanLemmas

section MaxUcbChildLemmas

variable {B : Type} [DecidableEq B]

/-- The unknown-children branch of `MaxUcbChild` (`uct_player.h:154-160`):
when some legal move has no child record, the result is
`unknown[thread_index % thread_count]` if that index is in range and
`unknown[0]` otherwise. -/
theorem maxUcbChild_null (g : GoGame B) (ucb : NodeRecord → Nat → ℚ)
    (thread_count : Nat) (t : TranspositionTable B) (b : B)
    (thread_index : Nat) (hU : unknownIndexes g t b ≠ []) :
    MaxUcbChild g ucb thread_count t b thread_index =
      if thread_index % thread_count < (unknownIndexes g t b).length then
        (unknownIndexes g t b).getD (thread_index % thread_count)
          POSITION_INDEX_PASS
      else (unknownIndexes g t b).getD 0 POSITION_INDEX_PASS := by
  have hsnd := countVisitsAndNulls_snd g t b
    (g.playableIndexes b (g.nextForce b)) 0 []
  simp only [List.nil_append] at hsnd
  have hsndU : (CountVisitsAndNulls g t b
      (g.playableIndexes b (g.nextForce b)) (0, [])).2 =
      unknownIndexes g t b := hsnd
  have hemp : (unknownIndexes g t b).isEmpty = false := by
    cases hU' : unknownIndexes g t b with
    | nil => exact absurd hU' hU
    | cons a as => simp
  simp only [MaxUcbChild, hsndU, hemp, Bool.false_eq_true, if_false]

/-- The all-children-known branch of `MaxUcbChild` (`uct_player.h:162-181`):
when every legal move has a child record, the result is the second component
of the running-maximum fold of the UCB score over the candidate indexes,
seeded with `(-1, POSITION_INDEX_PASS)`. -/
theorem maxUcbChild_known (g : GoGame B) (ucb : NodeRecord → Nat → ℚ)
    (thread_count : Nat) (t : TranspositionTable B) (b : B)
    (thread_index : Nat)
    (hall : ∀ m ∈ g.playableIndexes b (g.nextForce b),
      (TranspositionTable.getChild g t b m).isSome = true) :
    MaxUcbChild g ucb thread_count t b thread_index =
      (pureMaxFold (ucbScore g ucb t b) (candidateIndexes g t b)
        (-1, POSITION_INDEX_PASS)).2 := by
  have hnil : (g.playableIndexes b (g.nextForce b)).filter
      (fun m => (TranspositionTable.getChild g t b m).isNone) = [] := by
    rw [List.filter_eq_nil_iff]
    intro m hm
    have hs := hall m hm
    simp only [Option.isNone]
    cases hx : TranspositionTable.getChild g t b m with
    | none => rw [hx] at hs; simp at hs
    | some r => simp
  have hsnd := countVisitsAndNulls_snd g t b
    (g.playableIndexes b (g.nextForce b)) 0 []
  rw [hnil] at hsnd
  simp only [List.nil_append, List.append_nil] at hsnd
  have hfst := countVisitsAndNulls_fst_all g t b
    (g.playableIndexes b (g.nextForce b)) hall 0
  simp only [Nat.zero_add] at hfst
  simp only [MaxUcbChild, hsnd, List.isEmpty_nil, if_true, hfst]
  rw [selectMaxUcb_eq_pure]
  rfl

end MaxUcbChildLemmas

section VisitLemmas

variable {B : Type} [DecidableEq B]
variable (g : GoGame B) (ucb : NodeRecord → Nat → ℚ)
variable (seed thread_count thread_index : Nat)

/-- Branch equation: absent record (leaf expansion, `uct_player.h:192-201`). -/
theorem visit_absent (fuel : Nat) (b : B) (st : SearchState B)
    (hget : st.table.get b = none) :
    ModifyAverageProfitAndReturnNewProfit g ucb seed thread_count thread_index
        (fuel + 1) b st =
      some ( GetRegionRatio g (if g.isEnd b then b else g.playout b seed)
          (g.lastForce b),
        ⟨st.table.insert b
          ⟨1, GetRegionRatio g (if g.isEnd b then b else g.playout b seed)
            (g.lastForce b), false⟩,
          st.mc_game_count + 1⟩,
        (if g.isEnd b then [] else [SearchEvent.playoutRun b seed]) ++
          [SearchEvent.insertRecord]) := by
  simp only [ModifyAverageProfitAndReturnNewProfit, hget]

/-- Branch equation: present record on a terminal board
(`uct_player.h:203-209` and the unconditional `SetVisitedTimes` at 229). -/
theorem visit_terminal (fuel : Nat) (b : B) (st : SearchState B)
    (r : NodeRecord) (hget : st.table.get b = some r)
    (hend : g.isEnd b = true) :
    ModifyAverageProfitAndReturnNewProfit g ucb seed thread_count thread_index
        (fuel + 1) b st =
      some (r.average_profit,
        ⟨((st.table.set b { r with is_in_search := true }).set b
            ⟨r.visited_times + 1, r.average_profit, true⟩).set b
            ⟨r.visited_times + 1, r.average_profit, false⟩,
          st.mc_game_count + 1⟩,
        [SearchEvent.lock, SearchEvent.setInSearch, SearchEvent.unlock,
         SearchEvent.setVisitedTimes,
         SearchEvent.lock, SearchEvent.setInSearch, SearchEvent.unlock]) := by
  simp only [ModifyAverageProfitAndReturnNewProfit, hget, hend, if_true]

/-- Branch equation: present record on a non-terminal board
(`uct_player.h:210-229`). -/
theorem visit_present_nonterminal (fuel : Nat) (b : B) (st : SearchState B)
    (r : NodeRecord) (hget : st.table.get b = some r)
    (hend : g.isEnd b = false) :
    ModifyAverageProfitAndReturnNewProfit g ucb seed thread_count thread_index
        (fuel + 1) b st =
      (match ModifyAverageProfitAndReturnNewProfit g ucb seed thread_count
          thread_index fuel
          (nextVisitStep g ucb thread_count thread_index b
            (st.table.set b { r with is_in_search := true })).1
          ⟨st.table.set b { r with is_in_search := true },
            st.mc_game_count⟩ with
      | none => none
      | some (sub_profit, st2, trRec) =>
        match st2.table.get b with
        | none => none
        | some cur =>
          some (1 - sub_profit,
            ⟨((st2.table.set b
                ⟨cur.visited_times,
                 (cur.average_profit * (cur.visited_times : ℚ) +
                   (1 - sub_profit)) / ((cur.visited_times : ℚ) + 1),
                 cur.is_in_search⟩).set b
                ⟨cur.visited_times + 1,
                 (cur.average_profit * (cur.visited_times : ℚ) +
                   (1 - sub_profit)) / ((cur.visited_times : ℚ) + 1),
                 cur.is_in_search⟩).set b
                ⟨cur.visited_times + 1,
                 (cur.average_profit * (cur.visited_times : ℚ) +
                   (1 - sub_profit)) / ((cur.visited_times : ℚ) + 1),
                 false⟩,
              st2.mc_game_count⟩,
            [SearchEvent.lock, SearchEvent.setInSearch, SearchEvent.unlock] ++
              (nextVisitStep g ucb thread_count thread_index b
                (st.table.set b { r with is_in_search := true })).2 ++
              trRec ++
              [SearchEvent.setAverageProfit, SearchEvent.setVisitedTimes,
               SearchEvent.lock, SearchEvent.setInSearch,
               SearchEvent.unlock])) := by
  simp only [ModifyAverageProfitAndReturnNewProfit, hget, hend,
    Bool.false_eq_true, if_false]

/-- Inversion of the non-terminal present-record branch: a successful visit
yields the recursive call's result, the record as re-read after the
recursion, and the exact output shape of the source. -/
theorem visit_present_nonterminal_inv (fuel : Nat) (b : B)
    (st : SearchState B) (r : NodeRecord)
    (out : ℚ × SearchState B × List (SearchEvent B))
    (hget : st.table.get b = some r) (hend : g.isEnd b = false)
    (h : ModifyAverageProfitAndReturnNewProfit g ucb seed thread_count
        thread_index (fuel + 1) b st = some out) :
    ∃ sub st2 trRec cur,
      ModifyAverageProfitAndReturnNewProfit g ucb seed thread_count
        thread_index fuel
        (nextVisitStep g ucb thread_count thread_index b
          (st.table.set b { r with is_in_search := true })).1
        ⟨st.table.set b { r with is_in_search := true },
          st.mc_game_count⟩ = some (sub, st2, trRec) ∧
      st2.table.get b = some cur ∧
      out = (1 - sub,
        ⟨((st2.table.set b
            ⟨cur.visited_times,
             (cur.average_profit * (cur.visited_times : ℚ) + (1 - sub)) /
               ((cur.visited_times : ℚ) + 1),
             cur.is_in_search⟩).set b
            ⟨cur.visited_times + 1,
             (cur.average_profit * (cur.visited_times : ℚ) + (1 - sub)) /
               ((cur.visited_times : ℚ) + 1),
             cur.is_in_search⟩).set b
            ⟨cur.visited_times + 1,
             (cur.average_profit * (cur.visited_times : ℚ) + (1 - sub)) /
               ((cur.visited_times : ℚ) + 1),
             false⟩,
          st2.mc_game_count⟩,
        [SearchEvent.lock, SearchEvent.setInSearch, SearchEvent.unlock] ++
          (nextVisitStep g ucb thread_count thread_index b
            (st.table.set b { r with is_in_search := true })).2 ++
          trRec ++
          [SearchEvent.setAverageProfit, SearchEvent.setVisitedTimes,
           SearchEvent.lock, SearchEvent.setInSearch,
           SearchEvent.unlock]) := by
  rw [visit_present_nonterminal g ucb seed thread_count thread_index fuel b
    st r hget hend] at h
  cases hrec : ModifyAverageProfitAndReturnNewProfit g ucb seed thread_count
      thread_index fuel
      (nextVisitStep g ucb thread_count thread_index b
        (st.table.set b { r with is_in_search := true })).1
      ⟨st.table.set b { r with is_in_search := true },
        st.mc_game_count⟩ with
  | none => rw [hrec] at h; exact absurd h (by simp)
  | some val =>
    obtain ⟨sub, st2, trRec⟩ := val
    rw [hrec] at h
    dsimp only at h
    cases hcur : st2.table.get b with
    | none => rw [hcur] at h; simp at h
    | some cur =>
      rw [hcur] at h
      dsimp only at h
      exact ⟨sub, st2, trRec, cur, rfl, hcur, (Option.some.inj h).symm⟩

end VisitLemmas

theorem get_set_presence {B : Type} [DecidableEq B]
    (t : TranspositionTable B) (b c : B) (R r0 : NodeRecord)
    (h : t.get c = some r0) : ∃ r1, (t.set b R).get c = some r1 := by
  rw [TranspositionTable.get_set]
  by_cases hcb : c = b
  · subst hcb; rw [h]; exact ⟨R, by simp⟩
  · exact ⟨r0, by simp [hcb, h]⟩

theorem get_set3_self {B : Type} [DecidableEq B]
    (t : TranspositionTable B) (b : B) (A A' A'' r0 : NodeRecord)
    (h : t.get b = some r0) :
    (((t.set b A).set b A').set b A'').get b = some A'' := by
  have h1 := TranspositionTable.get_set_self t b A r0 h
  have h2 := TranspositionTable.get_set_self (t.set b A) b A' A h1
  exact TranspositionTable.get_set_self ((t.set b A).set b A') b A'' A' h2

theorem get_set3_ne {B : Type} [DecidableEq B]
    (t : TranspositionTable B) (b c : B) (A A' A'' : NodeRecord)
    (h : c ≠ b) :
    (((t.set b A).set b A').set b A'').get c = t.get c := by
  rw [TranspositionTable.get_set_ne _ _ _ _ h,
    TranspositionTable.get_set_ne _ _ _ _ h,
    TranspositionTable.get_set_ne _ _ _ _ h]

section VisitStructure

variable {B : Type} [DecidableEq B]
variable (g : GoGame B) (ucb : NodeRecord → Nat → ℚ)
variable (seed thread_count thread_index : Nat)

/-- Each successful visit increments the shared playout counter by exactly
one: each descent ends in exactly one leaf expansion or terminal reuse. -/
theorem visit_mc_succ :
    ∀ (fuel : Nat) (b : B) (st : SearchState B)
      (out : ℚ × SearchState B × List (SearchEvent B)),
      ModifyAverageProfitAndReturnNewProfit g ucb seed thread_count
        thread_index fuel b st = some out →
      out.2.1.mc_game_count = st.mc_game_count + 1 := by
  intro fuel
  induction fuel with
  | zero =>
    intro b st out h
    simp [ModifyAverageProfitAndReturnNewProfit] at h
  | succ fuel ih =>
    intro b st out h
    cases hget : st.table.get b with
    | none =>
      rw [visit_absent g ucb seed thread_count thread_index fuel b st hget]
        at h
      have hout := (Option.some.inj h).symm
      subst hout
      rfl
    | some r =>
      cases hend : g.isEnd b with
      | true =>
        rw [visit_terminal g ucb seed thread_count thread_index fuel b st r
          hget hend] at h
        have hout := (Option.some.inj h).symm
        subst hout
        rfl
      | false =>
        obtain ⟨sub, st2, trRec, cur, hrec, hcur, hout⟩ :=
          visit_present_nonterminal_inv g ucb seed thread_count thread_index
            fuel b st r out hget hend h
        subst hout
        exact ih _ ⟨st.table.set b { r with is_in_search := true },
          st.mc_game_count⟩ (sub, st2, trRec) hrec

/-- A successful visit never removes a record: every key present before is
present after (records are only inserted or mutated in place). -/
theorem visit_presence :
    ∀ (fuel : Nat) (b : B) (st : SearchState B)
      (out : ℚ × SearchState B × List (SearchEvent B)),
      ModifyAverageProfitAndReturnNewProfit g ucb seed thread_count
        thread_index fuel b st = some out →
      ∀ (c : B) (r0 : NodeRecord), st.table.get c = some r0 →
        ∃ r1, out.2.1.table.get c = some r1 := by
  intro fuel
  induction fuel with
  | zero =>
    intro b st out h
    simp [ModifyAverageProfitAndReturnNewProfit] at h
  | succ fuel ih =>
    intro b st out h c r0 hc
    cases hget : st.table.get b with
    | none =>
      rw [visit_absent g ucb seed thread_count thread_index fuel b st hget]
        at h
      have hout := (Option.some.inj h).symm
      subst hout
      have hcb : c ≠ b := by
        intro hh; rw [hh, hget] at hc; exact Option.noConfusion hc
      exact ⟨r0, by simp [TranspositionTable.get_insert, hcb, hc]⟩
    | some r =>
      cases hend : g.isEnd b with
      | true =>
        rw [visit_terminal g ucb seed thread_count thread_index fuel b st r
          hget hend] at h
        have hout := (Option.some.inj h).symm
        subst hout
        by_cases hcb : c = b
        · subst hcb
          exact ⟨_, get_set3_self st.table c _ _ _ r hget⟩
        · exact ⟨r0, by rw [get_set3_ne st.table b c _ _ _ hcb]; exact hc⟩
      | false =>
        obtain ⟨sub, st2, trRec, cur, hrec, hcur, hout⟩ :=
          visit_present_nonterminal_inv g ucb seed thread_count thread_index
            fuel b st r out hget hend h
        subst hout
        obtain ⟨r1, hr1⟩ :=
          get_set_presence st.table b c { r with is_in_search := true } r0 hc
        obtain ⟨r2, hr2⟩ := ih _ _ _ hrec c r1 hr1
        by_cases hcb : c = b
        · subst hcb
          exact ⟨_, get_set3_self st2.table c _ _ _ cur hcur⟩
        · exact ⟨r2, by rw [get_set3_ne st2.table b c _ _ _ hcb]; exact hr2⟩

/-- A successful visit preserves the table invariant `visits ≥ 1`:
fresh records carry one visit and mutations only increment. -/
theorem visit_visitsInv :
    ∀ (fuel : Nat) (b : B) (st : SearchState B)
      (out : ℚ × SearchState B × List (SearchEvent B)),
      (∀ (c : B) (r0 : NodeRecord), st.table.get c = some r0 →
        1 ≤ r0.visited_times) →
      ModifyAverageProfitAndReturnNewProfit g ucb seed thread_count
        thread_index fuel b st = some out →
      ∀ (c : B) (r1 : NodeRecord), out.2.1.table.get c = some r1 →
        1 ≤ r1.visited_times := by
  intro fuel
  induction fuel with
  | zero =>
    intro b st out _ h
    simp [ModifyAverageProfitAndReturnNewProfit] at h
  | succ fuel ih =>
    intro b st out hinv h c r1 hc
    cases hget : st.table.get b with
    | none =>
      rw [visit_absent g ucb seed thread_count thread_index fuel b st hget]
        at h
      have hout := (Option.some.inj h).symm
      subst hout
      rw [TranspositionTable.get_insert] at hc
      by_cases hcb : c = b
      · rw [if_pos hcb] at hc
        cases Option.some.inj hc
        exact le_refl 1
      · rw [if_neg hcb] at hc
        exact hinv c r1 hc
    | some r =>
      cases hend : g.isEnd b with
      | true =>
        rw [visit_terminal g ucb seed thread_count thread_index fuel b st r
          hget hend] at h
        have hout := (Option.some.inj h).symm
        subst hout
        by_cases hcb : c = b
        · subst hcb
          rw [get_set3_self st.table c _ _ _ r hget] at hc
          cases Option.some.inj hc
          exact Nat.le_add_left 1 r.visited_times
        · rw [get_set3_ne st.table b c _ _ _ hcb] at hc
          exact hinv c r1 hc
      | false =>
        obtain ⟨sub, st2, trRec, cur, hrec, hcur, hout⟩ :=
          visit_present_nonterminal_inv g ucb seed thread_count thread_index
            fuel b st r out hget hend h
        subst hout
        have hinv1 : ∀ (c0 : B) (r0 : NodeRecord),
            (st.table.set b { r with is_in_search := true }).get c0 =
              some r0 → 1 ≤ r0.visited_times := by
          intro c0 r0 h0
          rw [TranspositionTable.get_set] at h0
          by_cases hcb : c0 = b
          · rw [if_pos hcb, hget] at h0
            cases Option.some.inj h0
            exact hinv b r hget
          · rw [if_neg hcb] at h0
            exact hinv c0 r0 h0
        have hinv2 := ih _ _ _ hinv1 hrec
        by_cases hcb : c = b
        · subst hcb
          rw [get_set3_self st2.table c _ _ _ cur hcur] at hc
          cases Option.some.inj hc
          exact Nat.le_add_left 1 cur.visited_times
        · rw [get_set3_ne st2.table b c _ _ _ hcb] at hc
          exact hinv2 c r1 hc

end VisitStructure

theorem filter_length_le_of_imp {α : Type} (p q : α → Bool) :
    ∀ l : List α, (∀ a ∈ l, q a = true → p a = true) →
      (l.filter q).length ≤ (l.filter p).length := by
  intro l
  induction l with
  | nil => intro _; simp
  | cons x xs ih =>
    intro himp
    have ih' := ih (fun a ha hq => himp a (List.mem_cons_of_mem x ha) hq)
    cases hq : q x
    · cases hp : p x <;> simp [List.filter_cons, hq, hp] <;> omega
    · have hp : p x = true := himp x (List.mem_cons_self x xs) hq
      simp [List.filter_cons, hq, hp]
      omega

theorem filter_length_lt_of_imp {α : Type} (p q : α → Bool) :
    ∀ l : List α, (∀ a ∈ l, q a = true → p a = true) →
      ∀ a0 ∈ l, p a0 = true → q a0 = false →
      (l.filter q).length < (l.filter p).length := by
  intro l
  induction l with
  | nil => intro _ a0 ha0; cases ha0
  | cons x xs ih =>
    intro himp a0 ha0 hp0 hq0
    have himp' : ∀ a ∈ xs, q a = true → p a = true :=
      fun a ha hq => himp a (List.mem_cons_of_mem x ha) hq
    rcases List.mem_cons.mp ha0 with hax | hax
    · subst hax
      have hle := filter_length_le_of_imp p q xs himp'
      simp [List.filter_cons, hq0, hp0]
      omega
    · have hlt := ih himp' a0 hax hp0 hq0
      cases hq : q x
      · cases hp : p x <;> simp [List.filter_cons, hq, hp] <;> omega
      · have hp : p x = true := himp x (List.mem_cons_self x xs) hq
        simp [List.filter_cons, hq, hp]
        omega

section LoopLemmas

variable {B : Type} [DecidableEq B]
variable (g : GoGame B) (ucb : NodeRecord → Nat → ℚ)
variable (seed thread_count target thread_index : Nat) (root : B)

/-- A worker loop whose termination condition already holds returns its
state unchanged with an empty trace. -/
theorem loop_done (loopFuel visitFuel : Nat) (st : SearchState B)
    (hge : ¬ st.mc_game_count < target) :
    SearchAndModifyNodes g ucb seed thread_count target thread_index root
      loopFuel visitFuel st = some (st, []) := by
  cases loopFuel <;> simp [SearchAndModifyNodes, hge]

/-- Inversion of one iteration of the worker loop: selection at the root,
play, visit, then the remaining iterations. -/
theorem loop_step_inv (loopFuel visitFuel : Nat) (st : SearchState B)
    (out : SearchState B × List (SearchEvent B))
    (hlt : st.mc_game_count < target)
    (h : SearchAndModifyNodes g ucb seed thread_count target thread_index
      root (loopFuel + 1) visitFuel st = some out) :
    ∃ p st' trV stF trRest,
      ModifyAverageProfitAndReturnNewProfit g ucb seed thread_count
        thread_index visitFuel
        (g.play root
          (MaxUcbChild g ucb thread_count st.table root thread_index)) st =
        some (p, st', trV) ∧
      SearchAndModifyNodes g ucb seed thread_count target thread_index root
        loopFuel visitFuel st' = some (stF, trRest) ∧
      out = (stF, [SearchEvent.lock, SearchEvent.unlock] ++ trV ++ trRest) := by
  simp only [SearchAndModifyNodes, if_pos hlt] at h
  cases hv : ModifyAverageProfitAndReturnNewProfit g ucb seed thread_count
      thread_index visitFuel
      (g.play root
        (MaxUcbChild g ucb thread_count st.table root thread_index)) st with
  | none => rw [hv] at h; simp at h
  | some val =>
    obtain ⟨p, st', trV⟩ := val
    rw [hv] at h
    dsimp only at h
    cases hl : SearchAndModifyNodes g ucb seed thread_count target
        thread_index root loopFuel visitFuel st' with
    | none => rw [hl] at h; simp at h
    | some val2 =>
      obtain ⟨stF, trRest⟩ := val2
      rw [hl] at h
      dsimp only at h
      exact ⟨p, st', trV, stF, trRest, rfl, hl, (Option.some.inj h).symm⟩

/-- The central invariant behind the coordinator's claim: a completed
single-threaded worker loop leaves no legal root move without a child
record, and every record in the table keeps at least one visit — provided
the playout target is at least the number of still-unknown root children.
The proof walks the loop: while unknown children remain, `MaxUcbChild`
returns the first of them, the visit is a leaf expansion that inserts its
record and bumps the counter by one, so the measure
`mc_game_count + #unknown` never exceeds the target. -/
theorem loop_unknown_empty :
    ∀ (loopFuel visitFuel : Nat) (st : SearchState B)
      (out : SearchState B × List (SearchEvent B)),
      SearchAndModifyNodes g ucb seed 1 target 0 root loopFuel visitFuel st =
        some out →
      (∀ (c : B) (r0 : NodeRecord), st.table.get c = some r0 →
        1 ≤ r0.visited_times) →
      (unknownIndexes g st.table root = [] ∨
        st.mc_game_count + (unknownIndexes g st.table root).length ≤ target) →
      unknownIndexes g out.1.table root = [] ∧
      (∀ (c : B) (r1 : NodeRecord), out.1.table.get c = some r1 →
        1 ≤ r1.visited_times) := by
  intro loopFuel
  induction loopFuel with
  | zero =>
    intro visitFuel st out h hinv hmeas
    simp only [SearchAndModifyNodes] at h
    by_cases hlt : st.mc_game_count < target
    · rw [if_pos hlt] at h; simp at h
    · rw [if_neg hlt] at h
      have hout := (Option.some.inj h).symm
      subst hout
      refine ⟨?_, hinv⟩
      rcases hmeas with hU | hle
      · exact hU
      · have : (unknownIndexes g st.table root).length = 0 := by omega
        exact List.length_eq_zero.mp this
  | succ loopFuel ih =>
    intro visitFuel st out h hinv hmeas
    by_cases hlt : st.mc_game_count < target
    · obtain ⟨p, st', trV, stF, trRest, hv, hl, hout⟩ :=
        loop_step_inv g ucb seed 1 target 0 root loopFuel visitFuel st out
          hlt h
      subst hout
      cases hU : unknownIndexes g st.table root with
      | nil =>
        have hall : ∀ m ∈ g.playableIndexes root (g.nextForce root),
            ∃ r0, st.table.get (g.play root m) = some r0 := by
          intro m hm
          have hnm := List.filter_eq_nil_iff.mp hU m hm
          simp only [Option.isNone, Bool.not_eq_true] at hnm
          cases hx : st.table.get (g.play root m) with
          | none =>
            rw [TranspositionTable.getChild, hx] at hnm
            simp at hnm
          | some r0 => exact ⟨r0, rfl⟩
        have hU' : unknownIndexes g st'.table root = [] := by
          simp only [unknownIndexes]
          rw [List.filter_eq_nil_iff]
          intro m hm
          obtain ⟨r0, hr0⟩ := hall m hm
          obtain ⟨r1, hr1⟩ := visit_presence g ucb seed 1 0 visitFuel _ st
            (p, st', trV) hv (g.play root m) r0 hr0
          simp [TranspositionTable.getChild, hr1]
        have hinv' := visit_visitsInv g ucb seed 1 0 visitFuel _ st
          (p, st', trV) hinv hv
        exact ih visitFuel st' (stF, trRest) hl hinv' (Or.inl hU')
      | cons u us =>
        have hUne : unknownIndexes g st.table root ≠ [] := by
          rw [hU]; exact List.cons_ne_nil u us
        have hmax : MaxUcbChild g ucb 1 st.table root 0 = u := by
          rw [maxUcbChild_null g ucb 1 st.table root 0 hUne, hU]
          simp
        have humem : u ∈ unknownIndexes g st.table root := by
          rw [hU]; exact List.mem_cons_self u us
        have hunone : st.table.get (g.play root u) = none := by
          have := List.mem_filter.mp humem
          have hn := this.2
          simp only [TranspositionTable.getChild, Option.isNone] at hn
          cases hx : st.table.get (g.play root u) with
          | none => rfl
          | some r0 => rw [hx] at hn; simp at hn
        cases visitFuel with
        | zero =>
          rw [hmax] at hv
          simp [ModifyAverageProfitAndReturnNewProfit] at hv
        | succ vf =>
          rw [hmax] at hv
          rw [visit_absent g ucb seed 1 0 vf (g.play root u) st hunone]
            at hv
          have hv' := (Option.some.inj hv)
          have hst' : st' = ⟨st.table.insert (g.play root u)
              ⟨1, GetRegionRatio g
                (if g.isEnd (g.play root u) then g.play root u
                  else g.playout (g.play root u) seed)
                (g.lastForce (g.play root u)), false⟩,
              st.mc_game_count + 1⟩ := by
            have := congrArg (fun z => z.2.1) hv'
            exact this.symm
          have hinv' : ∀ (c : B) (r0 : NodeRecord),
              st'.table.get c = some r0 → 1 ≤ r0.visited_times := by
            intro c r0 hc
            rw [hst'] at hc
            simp only [TranspositionTable.get_insert] at hc
            by_cases hcb : c = g.play root u
            · rw [if_pos hcb] at hc
              cases Option.some.inj hc
              exact le_refl 1
            · rw [if_neg hcb] at hc
              exact hinv c r0 hc
          have hlen : (unknownIndexes g st'.table root).length <
              (unknownIndexes g st.table root).length := by
            rw [hst']
            simp only [unknownIndexes]
            refine filter_length_lt_of_imp _ _
              (g.playableIndexes root (g.nextForce root)) ?_ u ?_ ?_ ?_
            · intro a ha hq
              simp only [TranspositionTable.getChild,
                TranspositionTable.get_insert] at hq
              by_cases hab : g.play root a = g.play root u
              · rw [if_pos hab] at hq; simp at hq
              · rw [if_neg hab] at hq
                simpa [TranspositionTable.getChild] using hq
            · exact (List.mem_filter.mp humem).1
            · exact (List.mem_filter.mp humem).2
            · simp [TranspositionTable.getChild,
                TranspositionTable.get_insert]
          have hcount' : st'.mc_game_count = st.mc_game_count + 1 := by
            rw [hst']
          have hmeas' : unknownIndexes g st'.table root = [] ∨
              st'.mc_game_count +
                (unknownIndexes g st'.table root).length ≤ target := by
            rcases hmeas with hnil | hle
            · rw [hnil] at hU
              exact absurd hU.symm (List.cons_ne_nil u us)
            · right
              rw [hcount']
              omega
          exact ih (vf + 1) st' (stF, trRest) hl hinv' hmeas'
    · rw [loop_done g ucb seed 1 target 0 root (loopFuel + 1) visitFuel st
        hlt] at h
      have hout := (Option.some.inj h).symm
      subst hout
      refine ⟨?_, hinv⟩
      rcases hmeas with hU | hle
      · exact hU
      · have : (unknownIndexes g st.table root).length = 0 := by omega
        exact List.length_eq_zero.mp this

end LoopLemmas

/-- The region ratio lies in `[0, 1]` whenever the black region never
exceeds the board area. -/
theorem regionRatio_bounds {B : Type} (g : GoGame B)
    (hreg : ∀ bb : B, g.blackRegion bb ≤ g.boardLenSquare) (bb : B)
    (f : Force) :
    0 ≤ GetRegionRatio g bb f ∧ GetRegionRatio g bb f ≤ 1 := by
  have hn : (0:ℚ) ≤ (g.blackRegion bb : ℚ) := Nat.cast_nonneg _
  have hd : (0:ℚ) ≤ (g.boardLenSquare : ℚ) := Nat.cast_nonneg _
  have hratio0 : 0 ≤ (g.blackRegion bb : ℚ) / (g.boardLenSquare : ℚ) :=
    div_nonneg hn hd
  have hratio1 : (g.blackRegion bb : ℚ) / (g.boardLenSquare : ℚ) ≤ 1 := by
    rcases Nat.eq_zero_or_pos g.boardLenSquare with h0 | hpos
    · have hz : g.blackRegion bb = 0 := by have := hreg bb; omega
      simp [hz, h0]
    · rw [div_le_one (by exact_mod_cast hpos)]
      exact_mod_cast hreg bb
  cases f with
  | black =>
    constructor <;> simp only [ GetRegionRatio] <;> assumption
  | white =>
    constructor <;> simp only [ GetRegionRatio] <;> linarith

section VisitRange

variable {B : Type} [DecidableEq B]
variable (g : GoGame B) (ucb : NodeRecord → Nat → ℚ)
variable (seed thread_count thread_index : Nat)

/-- A successful visit keeps every stored average profit in `[0, 1]` and
returns a profit in `[0, 1]`: first visits store a region ratio, and each
update replaces the average by a convex combination of the old average and
a sample `1 - sub` with `sub ∈ [0, 1]`. -/
theorem visit_profitRange
    (hreg : ∀ bb : B, g.blackRegion bb ≤ g.boardLenSquare) :
    ∀ (fuel : Nat) (b : B) (st : SearchState B)
      (out : ℚ × SearchState B × List (SearchEvent B)),
      (∀ (c : B) (r0 : NodeRecord), st.table.get c = some r0 →
        0 ≤ r0.average_profit ∧ r0.average_profit ≤ 1) →
      ModifyAverageProfitAndReturnNewProfit g ucb seed thread_count
        thread_index fuel b st = some out →
      (0 ≤ out.1 ∧ out.1 ≤ 1) ∧
      (∀ (c : B) (r1 : NodeRecord), out.2.1.table.get c = some r1 →
        0 ≤ r1.average_profit ∧ r1.average_profit ≤ 1) := by
  intro fuel
  induction fuel with
  | zero =>
    intro b st out _ h
    simp [ModifyAverageProfitAndReturnNewProfit] at h
  | succ fuel ih =>
    intro b st out hinv h
    cases hget : st.table.get b with
    | none =>
      rw [visit_absent g ucb seed thread_count thread_index fuel b st hget]
        at h
      have hout := (Option.some.inj h).symm
      subst hout
      have hb := regionRatio_bounds g hreg
        (if g.isEnd b then b else g.playout b seed) (g.lastForce b)
      refine ⟨hb, ?_⟩
      intro c r1 hc
      rw [TranspositionTable.get_insert] at hc
      by_cases hcb : c = b
      · rw [if_pos hcb] at hc
        cases Option.some.inj hc
        exact hb
      · rw [if_neg hcb] at hc
        exact hinv c r1 hc
    | some r =>
      cases hend : g.isEnd b with
      | true =>
        rw [visit_terminal g ucb seed thread_count thread_index fuel b st r
          hget hend] at h
        have hout := (Option.some.inj h).symm
        subst hout
        have hr := hinv b r hget
        refine ⟨hr, ?_⟩
        intro c r1 hc
        by_cases hcb : c = b
        · subst hcb
          rw [get_set3_self st.table c _ _ _ r hget] at hc
          cases Option.some.inj hc
          exact hr
        · rw [get_set3_ne st.table b c _ _ _ hcb] at hc
          exact hinv c r1 hc
      | false =>
        obtain ⟨sub, st2, trRec, cur, hrec, hcur, hout⟩ :=
          visit_present_nonterminal_inv g ucb seed thread_count thread_index
            fuel b st r out hget hend h
        subst hout
        have hinv1 : ∀ (c0 : B) (r0 : NodeRecord),
            (st.table.set b { r with is_in_search := true }).get c0 =
              some r0 →
            0 ≤ r0.average_profit ∧ r0.average_profit ≤ 1 := by
          intro c0 r0 h0
          rw [TranspositionTable.get_set] at h0
          by_cases hcb : c0 = b
          · rw [if_pos hcb, hget] at h0
            cases Option.some.inj h0
            exact hinv b r hget
          · rw [if_neg hcb] at h0
            exact hinv c0 r0 h0
        obtain ⟨⟨hs0, hs1⟩, hinv2⟩ := ih _ _ (sub, st2, trRec) hinv1 hrec
        have hp0 : (0:ℚ) ≤ 1 - sub := by linarith
        have hp1 : (1:ℚ) - sub ≤ 1 := by linarith
        have hcurb := hinv2 b cur hcur
        have hv0 : (0:ℚ) ≤ (cur.visited_times : ℚ) := Nat.cast_nonneg _
        have hden : (0:ℚ) < (cur.visited_times : ℚ) + 1 := by linarith
        have hnum0 : (0:ℚ) ≤
            cur.average_profit * (cur.visited_times : ℚ) + (1 - sub) := by
          have := mul_nonneg hcurb.1 hv0
          linarith
        have hnum1 : cur.average_profit * (cur.visited_times : ℚ) +
            (1 - sub) ≤ (cur.visited_times : ℚ) + 1 := by
          have hm : cur.average_profit * (cur.visited_times : ℚ) ≤
              (cur.visited_times : ℚ) := by
            nlinarith [hcurb.2, hv0]
          linarith
        have hmod0 : (0:ℚ) ≤
            (cur.average_profit * (cur.visited_times : ℚ) + (1 - sub)) /
              ((cur.visited_times : ℚ) + 1) := div_nonneg hnum0 (le_of_lt hden)
        have hmod1 :
            (cur.average_profit * (cur.visited_times : ℚ) + (1 - sub)) /
              ((cur.visited_times : ℚ) + 1) ≤ 1 := by
          rw [div_le_one hden]
          exact hnum1
        refine ⟨⟨hp0, hp1⟩, ?_⟩
        intro c r1 hc
        by_cases hcb : c = b
        · subst hcb
          rw [get_set3_self st2.table c _ _ _ cur hcur] at hc
          cases Option.some.inj hc
          exact ⟨hmod0, hmod1⟩
        · rw [get_set3_ne st2.table b c _ _ _ hcb] at hc
          exact hinv2 c r1 hc

/-- Every Monte-Carlo playout event a visit emits was constructed with the
player's fixed seed. -/
theorem visit_seedEvents :
    ∀ (fuel : Nat) (b : B) (st : SearchState B)
      (out : ℚ × SearchState B × List (SearchEvent B)),
      ModifyAverageProfitAndReturnNewProfit g ucb seed thread_count
        thread_index fuel b st = some out →
      ∀ (b' : B) (s' : Nat),
        SearchEvent.playoutRun b' s' ∈ out.2.2 → s' = seed := by
  intro fuel
  induction fuel with
  | zero =>
    intro b st out h
    simp [ModifyAverageProfitAndReturnNewProfit] at h
  | succ fuel ih =>
    intro b st out h b' s' hmem
    cases hget : st.table.get b with
    | none =>
      rw [visit_absent g ucb seed thread_count thread_index fuel b st hget]
        at h
      have hout := (Option.some.inj h).symm
      subst hout
      simp only [List.mem_append] at hmem
      rcases hmem with hmem | hmem
      · cases hend : g.isEnd b with
        | true => rw [hend] at hmem; simp at hmem
        | false =>
          rw [hend] at hmem
          simp only [Bool.false_eq_true, if_false, List.mem_singleton]
            at hmem
          cases hmem
          rfl
      · simp at hmem
    | some r =>
      cases hend : g.isEnd b with
      | true =>
        rw [visit_terminal g ucb seed thread_count thread_index fuel b st r
          hget hend] at h
        have hout := (Option.some.inj h).symm
        subst hout
        simp at hmem
      | false =>
        obtain ⟨sub, st2, trRec, cur, hrec, hcur, hout⟩ :=
          visit_present_nonterminal_inv g ucb seed thread_count thread_index
            fuel b st r out hget hend h
        subst hout
        simp only [List.mem_append, List.mem_cons, List.mem_singleton]
          at hmem
        rcases hmem with ((hmem | hmem) | hmem) | hmem
        · rcases hmem with hmem | hmem | hmem <;> simp_all
        · simp only [nextVisitStep] at hmem
          by_cases hpe : (g.playableIndexes b (g.nextForce b)).isEmpty
          · rw [if_pos hpe] at hmem; simp at hmem
          · rw [if_neg hpe] at hmem; simp at hmem
        · exact ih _ _ (sub, st2, trRec) hrec b' s' hmem
        · simp_all

end VisitRange

section LoopRange

variable {B : Type} [DecidableEq B]
variable (g : GoGame B) (ucb : NodeRecord → Nat → ℚ)
variable (seed thread_count target thread_index : Nat) (root : B)

/-- A completed worker loop keeps every stored average profit in `[0, 1]`. -/
theorem loop_profitRange
    (hreg : ∀ bb : B, g.blackRegion bb ≤ g.boardLenSquare) :
    ∀ (loopFuel visitFuel : Nat) (st : SearchState B)
      (out : SearchState B × List (SearchEvent B)),
      (∀ (c : B) (r0 : NodeRecord), st.table.get c = some r0 →
        0 ≤ r0.average_profit ∧ r0.average_profit ≤ 1) →
      SearchAndModifyNodes g ucb seed thread_count target thread_index root
        loopFuel visitFuel st = some out →
      ∀ (c : B) (r1 : NodeRecord), out.1.table.get c = some r1 →
        0 ≤ r1.average_profit ∧ r1.average_profit ≤ 1 := by
  intro loopFuel
  induction loopFuel with
  | zero =>
    intro visitFuel st out hinv h
    simp only [SearchAndModifyNodes] at h
    by_cases hlt : st.mc_game_count < target
    · rw [if_pos hlt] at h; simp at h
    · rw [if_neg hlt] at h
      have hout := (Option.some.inj h).symm
      subst hout
      exact hinv
  | succ loopFuel ih =>
    intro visitFuel st out hinv h
    by_cases hlt : st.mc_game_count < target
    · obtain ⟨p, st', trV, stF, trRest, hv, hl, hout⟩ :=
        loop_step_inv g ucb seed thread_count target thread_index root
          loopFuel visitFuel st out hlt h
      subst hout
      have hinv' := (visit_profitRange g ucb seed thread_count thread_index
        hreg visitFuel _ st (p, st', trV) hinv hv).2
      exact ih visitFuel st' (stF, trRest) hinv' hl
    · rw [loop_done g ucb seed thread_count target thread_index root
        (loopFuel + 1) visitFuel st hlt] at h
      have hout := (Option.some.inj h).symm
      subst hout
      exact hinv

/-- Every playout event of a completed worker loop was constructed with the
player's fixed seed. -/
theorem loop_seedEvents :
    ∀ (loopFuel visitFuel : Nat) (st : SearchState B)
      (out : SearchState B × List (SearchEvent B)),
      SearchAndModifyNodes g ucb seed thread_count target thread_index root
        loopFuel visitFuel st = some out →
      ∀ (b' : B) (s' : Nat),
        SearchEvent.playoutRun b' s' ∈ out.2 → s' = seed := by
  intro loopFuel
  induction loopFuel with
  | zero =>
    intro visitFuel st out h b' s' hmem
    simp only [SearchAndModifyNodes] at h
    by_cases hlt : st.mc_game_count < target
    · rw [if_pos hlt] at h; simp at h
    · rw [if_neg hlt] at h
      have hout := (Option.some.inj h).symm
      subst hout
      simp at hmem
  | succ loopFuel ih =>
    intro visitFuel st out h b' s' hmem
    by_cases hlt : st.mc_game_count < target
    · obtain ⟨p, st', trV, stF, trRest, hv, hl, hout⟩ :=
        loop_step_inv g ucb seed thread_count target thread_index root
          loopFuel visitFuel st out hlt h
      subst hout
      simp only [List.mem_append, List.mem_cons, List.mem_singleton] at hmem
      rcases hmem with (hmem | hmem) | hmem
      · rcases hmem with hmem | hmem <;> simp_all
      · exact visit_seedEvents g ucb seed thread_count thread_index
          visitFuel _ st (p, st', trV) hv b' s' hmem
      · exact ih visitFuel st' (stF, trRest) hl b' s' hmem
    · rw [loop_done g ucb seed thread_count target thread_index root
        (loopFuel + 1) visitFuel st hlt] at h
      have hout := (Option.some.inj h).symm
      subst hout
      simp at hmem

end LoopRange

theorem selectMostVisited_eq_pure {B : Type} [DecidableEq B] (g : GoGame B)
    (t : TranspositionTable B) (b : B) :
    ∀ (l : List PositionIndex) (v : Int) (c : PositionIndex),
      (∀ m ∈ l, (TranspositionTable.getChild g t b m).isSome = true) →
      SelectMostVisited g t b l (v, some c) =
        some ((pureMaxFold (fun m => (childVisits g t b m : Int)) l (v, c)).1,
          some ((pureMaxFold (fun m => (childVisits g t b m : Int)) l
            (v, c)).2)) := by
  intro l
  induction l with
  | nil => intro v c _; simp [SelectMostVisited, pureMaxFold]
  | cons m rest ih =>
    intro v c hall
    have hm := hall m (List.mem_cons_self m rest)
    cases hx : TranspositionTable.getChild g t b m with
    | none => rw [hx] at hm; simp at hm
    | some r =>
      have hcv : ((childVisits g t b m : Int)) = (r.visited_times : Int) := by
        simp [childVisits, hx]
      have hall' : ∀ a ∈ rest,
          (TranspositionTable.getChild g t b a).isSome = true :=
        fun a ha => hall a (List.mem_cons_of_mem m ha)
      simp only [SelectMostVisited, hx]
      by_cases hlt : v < (r.visited_times : Int)
      · rw [if_pos hlt, ih ((r.visited_times : Int)) m hall']
        simp only [pureMaxFold, hcv, if_pos hlt]
      · rw [if_neg hlt, ih v c hall']
        simp only [pureMaxFold, hcv, if_neg hlt]

theorem sanity_maxUcb_empty_table :
    MaxUcbChild toyGame toyUcb 1 emptyToyTable [] 0 = 0 := by decide

theorem sanity_visit_caseA :
    (ModifyAverageProfitAndReturnNewProfit toyGame toyUcb 7 1 0 1 [0]
        ⟨emptyToyTable, 0⟩).map
      (fun out => (out.2.1.mc_game_count,
        (out.2.1.table.get [0]).map NodeRecord.visited_times, out.2.2)) =
      some (1, some 1, [SearchEvent.playoutRun [0] 7,
        SearchEvent.insertRecord]) := by
  decide

/-- C1 (counterexample): the claim "when the set `unknown` of legal moves
without child records is non-empty, `max_ucb_child` returns
`unknown[worker_id mod |unknown|]`" is false on the code.  With five worker
threads, worker 3 and two unknown children `[0, 1]`, the source computes
`3 % thread_count = 3`, which is out of range, and falls back to
`unknown[0] = 0`, while the claim demands `unknown[3 % 2] = unknown[1] = 1`. -/
theorem uct_c1_counterexample :
    unknownIndexes toyGame c1Table [] = [0, 1] ∧
    MaxUcbChild toyGame toyUcb 5 c1Table [] 3 = 0 ∧
    (unknownIndexes toyGame c1Table []).getD
      (3 % (unknownIndexes toyGame c1Table []).length) 99 = 1 ∧
    MaxUcbChild toyGame toyUcb 5 c1Table [] 3 ≠
      (unknownIndexes toyGame c1Table []).getD
        (3 % (unknownIndexes toyGame c1Table []).length) 99 := by
  decide

/-- C1 (amended): when `max_ucb_child` finds a non-empty list `unknown` of
legal moves whose child records are absent (ordered as in the parent's
playable-index sequence), it returns `unknown[worker_id mod thread_count]`
when that index is in range, and `unknown[0]` otherwise. -/
theorem uct_c1_amended {B : Type} [DecidableEq B] (g : GoGame B)
    (ucb : NodeRecord → Nat → ℚ) (thread_count : Nat)
    (t : TranspositionTable B) (b : B) (thread_index : Nat)
    (hU : unknownIndexes g t b ≠ []) :
    MaxUcbChild g ucb thread_count t b thread_index =
      if thread_index % thread_count < (unknownIndexes g t b).length then
        (unknownIndexes g t b).getD (thread_index % thread_count)
          POSITION_INDEX_PASS
      else (unknownIndexes g t b).getD 0 POSITION_INDEX_PASS :=
  maxUcbChild_null g ucb thread_count t b thread_index hU

/-- C1 (witness): the amended statement evaluated on the counterexample's
configuration. -/
theorem uct_c1_witness :
    MaxUcbChild toyGame toyUcb 5 c1Table [] 3 =
      if 3 % 5 < (unknownIndexes toyGame c1Table []).length then
        (unknownIndexes toyGame c1Table []).getD (3 % 5) POSITION_INDEX_PASS
      else (unknownIndexes toyGame c1Table []).getD 0 POSITION_INDEX_PASS :=
  uct_c1_amended toyGame toyUcb 5 c1Table [] 3 (by decide)

/-- C2 (counterexample): the claim "a terminal visit of a present record
leaves the record's statistics (both visits and average_profit) unchanged"
is false on the code: `SetVisitedTimes(GetVisitedTime() + 1)` at
`uct_player.h:229` runs in the terminal sub-case too, so a record with
three visits holds four visits afterwards. -/
theorem uct_c2_counterexample :
    ((ModifyAverageProfitAndReturnNewProfit toyGame toyUcb 7 1 0 1 [5, 5]
        ⟨c2Table, 0⟩).map
      (fun out => (out.2.1.table.get [5, 5]).map NodeRecord.visited_times)) =
      some (some 4) ∧
    ((ModifyAverageProfitAndReturnNewProfit toyGame toyUcb 7 1 0 1 [5, 5]
        ⟨c2Table, 0⟩).map
      (fun out => (out.2.1.table.get [5, 5]).map NodeRecord.visited_times)) ≠
      some (some 3) := by
  decide

/-- C2 (amended): a visit of a board whose record is present and which is
terminal increments `mc_game_count` by one, returns the record's stored
average profit, leaves `average_profit` unchanged and `in_search` false,
but increments the record's visit count by one; every other record is
untouched. -/
theorem uct_c2_amended {B : Type} [DecidableEq B] (g : GoGame B)
    (ucb : NodeRecord → Nat → ℚ) (seed thread_count thread_index fuel : Nat)
    (b : B) (st : SearchState B) (r : NodeRecord)
    (hget : st.table.get b = some r) (hend : g.isEnd b = true) :
    ∃ st' tr,
      ModifyAverageProfitAndReturnNewProfit g ucb seed thread_count
        thread_index (fuel + 1) b st = some (r.average_profit, st', tr) ∧
      st'.mc_game_count = st.mc_game_count + 1 ∧
      st'.table.get b =
        some ⟨r.visited_times + 1, r.average_profit, false⟩ ∧
      ∀ c : B, c ≠ b → st'.table.get c = st.table.get c := by
  refine ⟨_, _,
    visit_terminal g ucb seed thread_count thread_index fuel b st r hget
      hend, rfl, ?_, ?_⟩
  · exact get_set3_self st.table b _ _ _ r hget
  · intro c hcb
    exact get_set3_ne st.table b c _ _ _ hcb

/-- C2 (witness): the amended statement evaluated at the counterexample's
input. -/
theorem uct_c2_witness :
    ∃ st' tr,
      ModifyAverageProfitAndReturnNewProfit toyGame toyUcb 7 1 0 1 [5, 5]
        ⟨c2Table, 0⟩ = some ((1 : ℚ)/2, st', tr) ∧
      st'.mc_game_count = 0 + 1 ∧
      st'.table.get [5, 5] = some ⟨3 + 1, (1 : ℚ)/2, false⟩ ∧
      ∀ c : List Int, c ≠ [5, 5] → st'.table.get c =
        (⟨c2Table, 0⟩ : SearchState (List Int)).table.get c :=
  uct_c2_amended toyGame toyUcb 7 1 0 0 [5, 5] ⟨c2Table, 0⟩
    ⟨3, (1 : ℚ)/2, false⟩ rfl (by decide)

/-- C3 (code evaluation at the failing input): the claim that every table
insertion and record mutation happens while the worker holds the search
mutex is contradicted by the traces: a leaf expansion emits its
`insertRecord` at lock depth zero (the insert at `uct_player.h:201` is
outside the mutex), and a terminal revisit emits its `setVisitedTimes` at
lock depth zero (`uct_player.h:229` runs after the unlock at 205 and before
the lock at 233). -/
theorem uct_c3_mutation_outside_lock :
    ((ModifyAverageProfitAndReturnNewProfit toyGame toyUcb 7 1 0 1 [0]
        ⟨emptyToyTable, 0⟩).map
      (fun out => (mutationsLockedFrom 0 out.2.2, out.2.2))) =
      some (false, [SearchEvent.playoutRun [0] 7,
        SearchEvent.insertRecord]) ∧
    ((ModifyAverageProfitAndReturnNewProfit toyGame toyUcb 7 1 0 1 [5, 5]
        ⟨c3Table, 0⟩).map
      (fun out => (mutationsLockedFrom 0 out.2.2, out.2.2))) =
      some (false,
        [SearchEvent.lock, SearchEvent.setInSearch, SearchEvent.unlock,
         SearchEvent.setVisitedTimes,
         SearchEvent.lock, SearchEvent.setInSearch, SearchEvent.unlock]) := by
  decide

/-- C4: in a single-threaded search (one worker, index 0) started with a
zero counter, whose playout target is at least the number of legal root
moves and whose initial table satisfies the `visits ≥ 1` record invariant,
a completed worker loop leaves every legal root child with a child record
holding at least one visit — the state in which `best_child` is then
called. -/
theorem uct_c4_all_children_visited {B : Type} [DecidableEq B]
    (g : GoGame B) (ucb : NodeRecord → Nat → ℚ)
    (seed target loopFuel visitFuel : Nat) (root : B)
    (st0 : SearchState B) (out : SearchState B × List (SearchEvent B))
    (hcount : st0.mc_game_count = 0)
    (hinv : ∀ (c : B) (r0 : NodeRecord), st0.table.get c = some r0 →
      1 ≤ r0.visited_times)
    (htarget : (g.playableIndexes root (g.nextForce root)).length ≤ target)
    (h : SearchAndModifyNodes g ucb seed 1 target 0 root loopFuel visitFuel
      st0 = some out) :
    allRootChildrenVisited g root out.1.table = true := by
  have hmeas : unknownIndexes g st0.table root = [] ∨
      st0.mc_game_count + (unknownIndexes g st0.table root).length ≤
        target := by
    right
    rw [hcount]
    have hle : (unknownIndexes g st0.table root).length ≤
        (g.playableIndexes root (g.nextForce root)).length := by
      simp only [unknownIndexes]
      exact List.length_filter_le _ _
    omega
  obtain ⟨hUnil, hinv'⟩ := loop_unknown_empty g ucb seed target root
    loopFuel visitFuel st0 out h hinv hmeas
  simp only [unknownIndexes] at hUnil
  simp only [allRootChildrenVisited]
  rw [List.all_eq_true]
  intro m hm
  have hnm := List.filter_eq_nil_iff.mp hUnil m hm
  cases hx : out.1.table.get (g.play root m) with
  | none =>
    rw [TranspositionTable.getChild, hx] at hnm
    simp at hnm
  | some r =>
    simp only [hx]
    exact decide_eq_true (hinv' (g.play root m) r hx)

/-- C4 (witness): the completed three-playout single-threaded toy search on
the empty table covers all three root children. -/
theorem uct_c4_witness :
    allRootChildrenVisited toyGame [] c4Out.1.table = true :=
  uct_c4_all_children_visited toyGame toyUcb 7 3 5 1 [] ⟨emptyToyTable, 0⟩
    c4Out rfl
    (fun c r0 hc => by
      simp [emptyToyTable, TranspositionTable.get,
        TranspositionTable.lookupRec] at hc)
    (by decide) rfl

/-- C5: when the root has a legal move and every legal move's child record
is present, `BestChild` returns the first playable index attaining the
maximal child visit count: the returned move is legal and its child's visit
count dominates every legal move's child. -/
theorem uct_c5_best_child {B : Type} [DecidableEq B] (g : GoGame B)
    (t : TranspositionTable B) (b : B) (x : PositionIndex)
    (xs : List PositionIndex)
    (hp : g.playableIndexes b (g.nextForce b) = x :: xs)
    (hall : ∀ m ∈ g.playableIndexes b (g.nextForce b),
      (TranspositionTable.getChild g t b m).isSome = true) :
    BestChild g t b =
      some (firstMaxBy (fun m => (childVisits g t b m : Int)) x xs) ∧
    firstMaxBy (fun m => (childVisits g t b m : Int)) x xs ∈
      g.playableIndexes b (g.nextForce b) ∧
    ∀ y ∈ g.playableIndexes b (g.nextForce b),
      childVisits g t b y ≤
        childVisits g t b
          (firstMaxBy (fun m => (childVisits g t b m : Int)) x xs) := by
  have hallx : (TranspositionTable.getChild g t b x).isSome = true := by
    apply hall
    rw [hp]
    exact List.mem_cons_self x xs
  cases hx : TranspositionTable.getChild g t b x with
  | none => rw [hx] at hallx; simp at hallx
  | some r =>
    have hallxs : ∀ m ∈ xs,
        (TranspositionTable.getChild g t b m).isSome = true := by
      intro m hm
      apply hall
      rw [hp]
      exact List.mem_cons_of_mem x hm
    have hf : ((childVisits g t b x : Int)) = (r.visited_times : Int) := by
      simp [childVisits, hx]
    have hneg : (-1 : Int) < (r.visited_times : Int) := by
      have h0 : (0 : Int) ≤ (r.visited_times : Int) := Int.ofNat_nonneg _
      omega
    have hbc : BestChild g t b =
        some (firstMaxBy (fun m => (childVisits g t b m : Int)) x xs) := by
      simp only [BestChild, hp, SelectMostVisited, hx, if_pos hneg]
      rw [selectMostVisited_eq_pure g t b xs ((r.visited_times : Int)) x
        hallxs, ← hf,
        pureMaxFold_spec (fun m => (childVisits g t b m : Int)) xs x]
    refine ⟨hbc, ?_, ?_⟩
    · rw [hp]
      exact firstMaxBy_mem _ x xs
    · intro y hy
      rw [hp] at hy
      have hle := firstMaxBy_le (fun m => (childVisits g t b m : Int)) x xs
        y hy
      simp only at hle
      exact_mod_cast hle

/-- C5 (witness): on a toy table whose visit counts are `1, 5, 5` for moves
`0, 1, 2`, the best child is move `1` — the first argmax. -/
theorem uct_c5_witness :
    BestChild toyGame c5Table [] =
      some (firstMaxBy (fun m => (childVisits toyGame c5Table [] m : Int))
        0 [1, 2]) ∧
    firstMaxBy (fun m => (childVisits toyGame c5Table [] m : Int)) 0 [1, 2] ∈
      toyGame.playableIndexes [] (toyGame.nextForce []) ∧
    ∀ y ∈ toyGame.playableIndexes [] (toyGame.nextForce []),
      childVisits toyGame c5Table [] y ≤
        childVisits toyGame c5Table []
          (firstMaxBy (fun m => (childVisits toyGame c5Table [] m : Int))
            0 [1, 2]) :=
  uct_c5_best_child toyGame c5Table [] 0 [1, 2] rfl (by decide)

/-- C6: when every legal move's child record is present and the score
function is nonnegative (as the source's UCB value is on reachable
records), `MaxUcbChild` returns PASS when every child is in-search or
suicidal, and otherwise the first candidate attaining the maximal UCB score
— candidates being the playable moves that are neither in-search nor
suicidal, in playable order; in particular a non-PASS result is never a
suicide move. -/
theorem uct_c6_known_children {B : Type} [DecidableEq B] (g : GoGame B)
    (ucb : NodeRecord → Nat → ℚ) (thread_count : Nat)
    (t : TranspositionTable B) (b : B) (thread_index : Nat)
    (hall : ∀ m ∈ g.playableIndexes b (g.nextForce b),
      (TranspositionTable.getChild g t b m).isSome = true)
    (hpos : ∀ (r : NodeRecord) (s : Nat), 0 ≤ ucb r s) :
    (candidateIndexes g t b = [] →
      MaxUcbChild g ucb thread_count t b thread_index =
        POSITION_INDEX_PASS) ∧
    (∀ x xs, candidateIndexes g t b = x :: xs →
      MaxUcbChild g ucb thread_count t b thread_index =
        firstMaxBy (ucbScore g ucb t b) x xs ∧
      firstMaxBy (ucbScore g ucb t b) x xs ∈ candidateIndexes g t b ∧
      ∀ y ∈ candidateIndexes g t b,
        ucbScore g ucb t b y ≤
          ucbScore g ucb t b (firstMaxBy (ucbScore g ucb t b) x xs)) ∧
    (MaxUcbChild g ucb thread_count t b thread_index ≠
        POSITION_INDEX_PASS →
      g.isSuicide b (g.nextForce b)
        (MaxUcbChild g ucb thread_count t b thread_index) = false) := by
  have hk := maxUcbChild_known g ucb thread_count t b thread_index hall
  have hsui : ∀ m ∈ candidateIndexes g t b,
      g.isSuicide b (g.nextForce b) m = false := by
    intro m hm
    simp only [candidateIndexes, List.mem_filter] at hm
    obtain ⟨hmp, hpred⟩ := hm
    cases hx : TranspositionTable.getChild g t b m with
    | none => rw [hx] at hpred; simp at hpred
    | some r =>
      rw [hx] at hpred
      dsimp only at hpred
      have hand := (Bool.and_eq_true _ _).mp hpred
      simpa using hand.2
  have h1 : candidateIndexes g t b = [] →
      MaxUcbChild g ucb thread_count t b thread_index =
        POSITION_INDEX_PASS := by
    intro hc
    rw [hk, hc]
    simp [pureMaxFold]
  have h2 : ∀ x xs, candidateIndexes g t b = x :: xs →
      MaxUcbChild g ucb thread_count t b thread_index =
        firstMaxBy (ucbScore g ucb t b) x xs := by
    intro x xs hc
    rw [hk, hc]
    simp only [pureMaxFold]
    have h0 : (-1 : ℚ) < ucbScore g ucb t b x :=
      lt_of_lt_of_le (by norm_num) (hpos _ _)
    rw [if_pos h0, pureMaxFold_spec (ucbScore g ucb t b) xs x]
  refine ⟨h1, ?_, ?_⟩
  · intro x xs hc
    refine ⟨h2 x xs hc, ?_, ?_⟩
    · rw [hc]
      exact firstMaxBy_mem _ x xs
    · intro y hy
      rw [hc] at hy
      exact firstMaxBy_le (ucbScore g ucb t b) x xs y hy
  · intro hne
    cases hc : candidateIndexes g t b with
    | nil => exact absurd (h1 hc) hne
    | cons x xs =>
      rw [h2 x xs hc]
      apply hsui
      rw [hc]
      exact firstMaxBy_mem _ x xs

/-- C6 (witness): with records for all three root children of the
suicide-variant toy game (move `2` suicidal) and the constant-zero score,
the candidate list is `[0, 1]` and the properties hold. -/
theorem uct_c6_witness :
    (candidateIndexes toyGameS c6Table [] = [] →
      MaxUcbChild toyGameS zeroUcb 1 c6Table [] 0 = POSITION_INDEX_PASS) ∧
    (∀ x xs, candidateIndexes toyGameS c6Table [] = x :: xs →
      MaxUcbChild toyGameS zeroUcb 1 c6Table [] 0 =
        firstMaxBy (ucbScore toyGameS zeroUcb c6Table []) x xs ∧
      firstMaxBy (ucbScore toyGameS zeroUcb c6Table []) x xs ∈
        candidateIndexes toyGameS c6Table [] ∧
      ∀ y ∈ candidateIndexes toyGameS c6Table [],
        ucbScore toyGameS zeroUcb c6Table [] y ≤
          ucbScore toyGameS zeroUcb c6Table []
            (firstMaxBy (ucbScore toyGameS zeroUcb c6Table []) x xs)) ∧
    (MaxUcbChild toyGameS zeroUcb 1 c6Table [] 0 ≠ POSITION_INDEX_PASS →
      toyGameS.isSuicide [] (toyGameS.nextForce [])
        (MaxUcbChild toyGameS zeroUcb 1 c6Table [] 0) = false) :=
  uct_c6_known_children toyGameS zeroUcb 1 c6Table [] 0 (by decide)
    (fun r s => le_refl 0)

/-- C7: a visit of a present, non-terminal record returns
`1 - recursive profit`, and afterwards the record holds
`average_profit = (avg·visits + x) / (visits + 1)` with `visits`
incremented by one, where `(visits, avg)` are the values `cur` re-read
through the record pointer after the recursive descent and `x` is the
returned profit — the read, the average write and the visit-count write
forming one visit (the single-threaded model applies them in one step). -/
theorem uct_c7_update_law {B : Type} [DecidableEq B] (g : GoGame B)
    (ucb : NodeRecord → Nat → ℚ)
    (seed thread_count thread_index fuel : Nat) (b : B)
    (st : SearchState B) (r : NodeRecord)
    (out : ℚ × SearchState B × List (SearchEvent B))
    (hget : st.table.get b = some r) (hend : g.isEnd b = false)
    (h : ModifyAverageProfitAndReturnNewProfit g ucb seed thread_count
      thread_index (fuel + 1) b st = some out) :
    ∃ sub st2 trRec cur,
      ModifyAverageProfitAndReturnNewProfit g ucb seed thread_count
        thread_index fuel
        (nextVisitStep g ucb thread_count thread_index b
          (st.table.set b { r with is_in_search := true })).1
        ⟨st.table.set b { r with is_in_search := true },
          st.mc_game_count⟩ = some (sub, st2, trRec) ∧
      st2.table.get b = some cur ∧
      out.1 = 1 - sub ∧
      out.2.1.table.get b = some ⟨cur.visited_times + 1,
        (cur.average_profit * (cur.visited_times : ℚ) + out.1) /
          ((cur.visited_times : ℚ) + 1), false⟩ ∧
      out.2.1.mc_game_count = st2.mc_game_count := by
  obtain ⟨sub, st2, trRec, cur, hrec, hcur, hout⟩ :=
    visit_present_nonterminal_inv g ucb seed thread_count thread_index fuel
      b st r out hget hend h
  subst hout
  refine ⟨sub, st2, trRec, cur, hrec, hcur, rfl, ?_, rfl⟩
  exact get_set3_self st2.table b _ _ _ cur hcur

/-- C7 (witness): the update law evaluated on the toy visit of `[0]` whose
record has two visits. -/
theorem uct_c7_witness :
    ∃ sub st2 trRec cur,
      ModifyAverageProfitAndReturnNewProfit toyGame toyUcb 7 1 0 1
        (nextVisitStep toyGame toyUcb 1 0 [0]
          (TranspositionTable.set c7Table [0] ⟨2, (1:ℚ)/2, true⟩)).1
        ⟨TranspositionTable.set c7Table [0] ⟨2, (1:ℚ)/2, true⟩, 0⟩ =
        some (sub, st2, trRec) ∧
      st2.table.get [0] = some cur ∧
      c7Out.1 = 1 - sub ∧
      c7Out.2.1.table.get [0] = some ⟨cur.visited_times + 1,
        (cur.average_profit * (cur.visited_times : ℚ) + c7Out.1) /
          ((cur.visited_times : ℚ) + 1), false⟩ ∧
      c7Out.2.1.mc_game_count = st2.mc_game_count :=
  uct_c7_update_law toyGame toyUcb 7 1 0 1 [0] ⟨c7Table, 0⟩
    ⟨2, (1:ℚ)/2, false⟩ c7Out rfl rfl rfl

/-- C8: a visit of a board with no record runs a playout exactly when the
board is not terminal, increments the counter by one, computes the profit
as the region ratio of the resulting board for the side that last moved,
inserts `NodeRecord(1, profit, false)` for the board, changes no other
record, and returns that profit (its trace is the playout event, when any,
followed by the insertion). -/
theorem uct_c8_leaf_expansion {B : Type} [DecidableEq B] (g : GoGame B)
    (ucb : NodeRecord → Nat → ℚ)
    (seed thread_count thread_index fuel : Nat) (b : B)
    (st : SearchState B) (hget : st.table.get b = none) :
    ∃ p st' tr,
      ModifyAverageProfitAndReturnNewProfit g ucb seed thread_count
        thread_index (fuel + 1) b st = some (p, st', tr) ∧
      p = GetRegionRatio g (if g.isEnd b then b else g.playout b seed)
        (g.lastForce b) ∧
      st'.mc_game_count = st.mc_game_count + 1 ∧
      st'.table.get b = some ⟨1, p, false⟩ ∧
      (∀ c : B, c ≠ b → st'.table.get c = st.table.get c) ∧
      tr = (if g.isEnd b then [] else [SearchEvent.playoutRun b seed]) ++
        [SearchEvent.insertRecord] := by
  refine ⟨_, _, _,
    visit_absent g ucb seed thread_count thread_index fuel b st hget,
    rfl, rfl, ?_, ?_, rfl⟩
  · simp [TranspositionTable.get_insert]
  · intro c hcb
    simp [TranspositionTable.get_insert, hcb]

/-- C8 (witness): the leaf expansion evaluated on the toy board `[1]` with
an empty table. -/
theorem uct_c8_witness :
    ∃ p st' tr,
      ModifyAverageProfitAndReturnNewProfit toyGame toyUcb 7 1 0 1 [1]
        ⟨emptyToyTable, 0⟩ = some (p, st', tr) ∧
      p = GetRegionRatio toyGame
        (if toyGame.isEnd [1] then [1] else toyGame.playout [1] 7)
        (toyGame.lastForce [1]) ∧
      st'.mc_game_count = 0 + 1 ∧
      st'.table.get [1] = some ⟨1, p, false⟩ ∧
      (∀ c : List Int, c ≠ [1] → st'.table.get c =
        (⟨emptyToyTable, 0⟩ : SearchState (List Int)).table.get c) ∧
      tr = (if toyGame.isEnd [1] then []
        else [SearchEvent.playoutRun [1] 7]) ++
        [SearchEvent.insertRecord] :=
  uct_c8_leaf_expansion toyGame toyUcb 7 1 0 0 [1] ⟨emptyToyTable, 0⟩ rfl

/-- C9: provided the board collaborator's black region never exceeds the
board area and every record of the initial table has its average profit in
`[0, 1]`, every record of the table of a completed worker loop has its
average profit in `[0, 1]` (the helper lemmas show each intermediate visit
preserves the bound as well: insertions store a region ratio and updates
are convex combinations). -/
theorem uct_c9_profit_range {B : Type} [DecidableEq B] (g : GoGame B)
    (ucb : NodeRecord → Nat → ℚ)
    (seed thread_count target thread_index : Nat) (root : B)
    (loopFuel visitFuel : Nat) (st0 : SearchState B)
    (out : SearchState B × List (SearchEvent B))
    (hreg : ∀ bb : B, g.blackRegion bb ≤ g.boardLenSquare)
    (hinv0 : ∀ (c : B) (r0 : NodeRecord), st0.table.get c = some r0 →
      0 ≤ r0.average_profit ∧ r0.average_profit ≤ 1)
    (h : SearchAndModifyNodes g ucb seed thread_count target thread_index
      root loopFuel visitFuel st0 = some out) :
    ∀ (c : B) (r1 : NodeRecord), out.1.table.get c = some r1 →
      0 ≤ r1.average_profit ∧ r1.average_profit ≤ 1 :=
  loop_profitRange g ucb seed thread_count target thread_index root hreg
    loopFuel visitFuel st0 out hinv0 h

/-- C9 (witness): the profit-range invariant evaluated on a completed toy
search from the empty table, read off at the record of the root child
`[0]`. -/
theorem uct_c9_witness :
    0 ≤ ((c9Out.1.table.get [0]).getD ⟨0, 0, false⟩).average_profit ∧
      ((c9Out.1.table.get [0]).getD ⟨0, 0, false⟩).average_profit ≤ 1 :=
  uct_c9_profit_range toyGame toyUcb 11 1 3 0 [] 5 1 ⟨emptyToyTable, 0⟩
    c9Out (fun bb => by simp [toyGame])
    (fun c r0 hc => by
      simp [emptyToyTable, TranspositionTable.get,
        TranspositionTable.lookupRec] at hc)
    (by rfl) [0] ((c9Out.1.table.get [0]).getD ⟨0, 0, false⟩) (by rfl)

/-- C10: every Monte-Carlo playout event of a completed worker loop was
constructed with the player's fixed seed; consequently any two playouts of
the same search started from equal boards are constructed with identical
seed and produce identical final boards. -/
theorem uct_c10_seed_uniform {B : Type} [DecidableEq B] (g : GoGame B)
    (ucb : NodeRecord → Nat → ℚ)
    (seed thread_count target thread_index : Nat) (root : B)
    (loopFuel visitFuel : Nat) (st0 : SearchState B)
    (out : SearchState B × List (SearchEvent B))
    (h : SearchAndModifyNodes g ucb seed thread_count target thread_index
      root loopFuel visitFuel st0 = some out) :
    (∀ (b' : B) (s' : Nat),
      SearchEvent.playoutRun b' s' ∈ out.2 → s' = seed) ∧
    (∀ (b1 : B) (s1 : Nat) (b2 : B) (s2 : Nat),
      SearchEvent.playoutRun b1 s1 ∈ out.2 →
      SearchEvent.playoutRun b2 s2 ∈ out.2 →
      b1 = b2 → g.playout b1 s1 = g.playout b2 s2) := by
  have h1 := loop_seedEvents g ucb seed thread_count target thread_index
    root loopFuel visitFuel st0 out h
  refine ⟨h1, ?_⟩
  intro b1 s1 b2 s2 hm1 hm2 hb
  rw [h1 b1 s1 hm1, h1 b2 s2 hm2, hb]

/-- C10 (witness): seed uniformity evaluated on a completed toy search with
seed 13 whose trace contains playout events. -/
theorem uct_c10_witness :
    (∀ (b' : List Int) (s' : Nat),
      SearchEvent.playoutRun b' s' ∈ c10Out.2 → s' = 13) ∧
    (∀ (b1 : List Int) (s1 : Nat) (b2 : List Int) (s2 : Nat),
      SearchEvent.playoutRun b1 s1 ∈ c10Out.2 →
      SearchEvent.playoutRun b2 s2 ∈ c10Out.2 →
      b1 = b2 → toyGame.playout b1 s1 = toyGame.playout b2 s2) :=
  uct_c10_seed_uniform toyGame toyUcb 13 1 2 0 [] 4 1 ⟨emptyToyTable, 0⟩
    c10Out rfl

end FoolGo
